import Mathlib

/-!
# `stubs.c`: the two OCaml primitives `caml_gettimeofday` and `caml_sleep`

The C source computes with IEEE-754 binary64 values (`double`), so the embedding
starts with a bit-level model of that format: a datum is a sign bit, an 11-bit
biased exponent and a 52-bit fraction, and every arithmetic operation is the
exact rational result rounded to nearest, ties to even.  On top of it sit the
two primitives, with the operating system calls they make (`gettimeofday`,
`usleep`) taken as explicit parameters.

What is assumed of the C implementation: `double` is binary64 and expressions are
evaluated in it, in the default rounding mode; `int` has 32 bits; `useconds_t` is
a 32-bit unsigned integer; the fields of `struct timeval` are signed integers
(the theorems that need a width assume a 64-bit `time_t`).

Layout: the definitions come first (the format, the runtime pieces, the two
stubs); then what rounding guarantees (`Near` and its consequences); then the
theorems about `caml_sleep` and `caml_gettimeofday`.
-/

namespace Stubs

/-! ## IEEE-754 binary64 -/

/-- An IEEE-754 binary64 datum: sign bit, 11-bit biased exponent, 52-bit fraction. -/
structure Double where
  sign : Bool
  exp : Fin 2048
  frac : Fin 4503599627370496
deriving DecidableEq

namespace Double

/-- Not-a-number: exponent all ones, fraction non-zero. -/
def isNaN (x : Double) : Prop := x.exp.val = 2047 ∧ x.frac.val ≠ 0

/-- Infinite: exponent all ones, fraction zero. -/
def isInf (x : Double) : Prop := x.exp.val = 2047 ∧ x.frac.val = 0

/-- Finite: zero, subnormal or normal. -/
def isFinite (x : Double) : Prop := x.exp.val < 2047

/-- Signed zero. -/
def isZero (x : Double) : Prop := x.exp.val = 0 ∧ x.frac.val = 0

instance (x : Double) : Decidable x.isNaN := inferInstanceAs (Decidable (_ ∧ _))

instance (x : Double) : Decidable x.isInf := inferInstanceAs (Decidable (_ ∧ _))

instance (x : Double) : Decidable x.isFinite := inferInstanceAs (Decidable (_ < _))

instance (x : Double) : Decidable x.isZero := inferInstanceAs (Decidable (_ ∧ _))

/-- The quiet NaN an invalid operation produces.  (The operations below return it
for a NaN operand too: payloads are not propagated.) -/
def nan : Double := ⟨false, 2047, 2251799813685248⟩

/-- Signed infinity. -/
def inf (neg : Bool) : Double := ⟨neg, 2047, 0⟩

/-- Signed zero. -/
def zero (neg : Bool) : Double := ⟨neg, 0, 0⟩

/-- Magnitude of a finite datum, counted in units of `2^-1074` (the smallest
subnormal): the fraction itself when the exponent field is zero, otherwise the
53-bit significand shifted by the exponent field minus one. -/
def units (x : Double) : Nat :=
  if x.exp.val = 0 then x.frac.val
  else (4503599627370496 + x.frac.val) * 2 ^ (x.exp.val - 1)

/-- The number of units of `2^-1074` in `1`. -/
def scale : Nat := 2 ^ 1074

/-- Signed magnitude in units of `2^-1074`. -/
def sunits (x : Double) : Int :=
  if x.sign then -(x.units : Int) else (x.units : Int)

/-- The rational number a finite datum stands for.  (On an infinity or a NaN the
same formula gives a number of magnitude at least `2^1024`, which stands for
nothing.) -/
def toRat (x : Double) : ℚ := (x.sunits : ℚ) / (scale : ℚ)

/-- Floor of the binary logarithm, by repeated halving (`0` at `0`). -/
def log2Fuel : Nat → Nat → Nat
  | 0, _ => 0
  | fuel + 1, x => if x < 2 then 0 else log2Fuel fuel (x / 2) + 1

/-- Floor of the binary logarithm of `x` (`0` at `0`). -/
def ilog2 (x : Nat) : Nat := log2Fuel x x

/-- The fraction `n / d` rounded to the nearest natural number, ties to even. -/
def rne (n d : Nat) : Nat :=
  let q := n / d
  let r := n % d
  if 2 * r < d then q else if d < 2 * r then q + 1 else q + q % 2

/-- Rounding `n / d` (with `0 < d`): the binary exponent of the quantum, above
`2^-1074`.  With `y = n * scale / d` the value in units of `2^-1074`, it is the
number of bits of `y` beyond 53. -/
def rshift (n d : Nat) : Nat := ilog2 (n * scale / d) - 52

/-- Rounding `n / d`: the significand, `n / d` counted in quanta and rounded to
nearest, ties to even. -/
def rsig (n d : Nat) : Nat := rne (n * scale) (d * 2 ^ rshift n d)

/-- Round the non-negative rational `n / d` (with `0 < d`) to binary64, nearest
with ties to even, and give it the sign `neg`.  The quantum exponent `s` and the
significand `m` are packed as `s * 2^52 + m`: this carries into the exponent
field when `m` reaches `2^53`, and the result is infinite when the exponent
field would be all ones. -/
def round (neg : Bool) (n d : Nat) : Double :=
  let bits := rshift n d * 4503599627370496 + rsig n d
  if h : bits < 2047 * 4503599627370496 then
    ⟨neg, ⟨bits / 4503599627370496, by omega⟩,
      ⟨bits % 4503599627370496, Nat.mod_lt _ (by decide)⟩⟩
  else inf neg

/-- Conversion of an integer to `double`, as the C cast `(double)i`. -/
def ofInt (i : Int) : Double := round (decide (i < 0)) i.natAbs 1

/-- The `double` literal `0.000001`: the decimal fraction rounded to nearest. -/
def micro : Double := round false 1 1000000

/-- IEEE-754 addition. -/
def add (a b : Double) : Double :=
  if a.isNaN ∨ b.isNaN then nan
  else if a.isInf then (if b.isInf ∧ a.sign ≠ b.sign then nan else a)
  else if b.isInf then b
  else
    let k := a.sunits + b.sunits
    if k = 0 then zero (a.sign && b.sign)
    else round (decide (k < 0)) k.natAbs scale

/-- IEEE-754 multiplication. -/
def mul (a b : Double) : Double :=
  let neg := xor a.sign b.sign
  if a.isNaN ∨ b.isNaN then nan
  else if a.isInf ∨ b.isInf then (if a.isZero ∨ b.isZero then nan else inf neg)
  else round neg (a.units * b.units) (scale * scale)

/-- IEEE-754 division. -/
def div (a b : Double) : Double :=
  let neg := xor a.sign b.sign
  if a.isNaN ∨ b.isNaN then nan
  else if a.isInf then (if b.isInf then nan else inf neg)
  else if b.isInf then zero neg
  else if b.isZero then (if a.isZero then nan else inf neg)
  else round neg a.units b.units

/-- The C conversion of a `double` to an integer type discards the fractional
part (truncation toward zero); there is no value for an infinity or a NaN. -/
def truncate (x : Double) : Option Int :=
  if x.isFinite then
    some (if x.sign then -((x.units / scale : Nat) : Int) else ((x.units / scale : Nat) : Int))
  else none

/-- The datum `r` is a nearest binary64 value to the rational `q`: no significand
of at most 53 bits times a power of two (in units of `2^-1074`) is closer. -/
def Near (q : ℚ) (r : Double) : Prop :=
  ∀ (c : ℤ) (t : ℕ), |c| ≤ 9007199254740992 → |q - r.toRat| ≤ |q - c * 2 ^ t / (scale : ℚ)|

/-- The sign factor of a sign bit. -/
def sgn (neg : Bool) : ℚ := if neg then -1 else 1

end Double

/-! ## The C and OCaml runtime pieces the stubs use -/

/-- Largest `int`. -/
def INT_MAX : Int := 2147483647

/-- Smallest `int`. -/
def INT_MIN : Int := -2147483648

/-- The cast `(int)x` of a `double`.  When the truncated value is an `int` it is
the result; otherwise C leaves the conversion undefined, and the `int` the
platform happens to produce is the parameter `oor`, reduced into the `int` range. -/
def double_to_int (oor : Double → Int) (x : Double) : Int :=
  match x.truncate with
  | some t => if INT_MIN ≤ t ∧ t ≤ INT_MAX then t else (oor x).bmod 4294967296
  | none => (oor x).bmod 4294967296

/-- What the stubs cannot see of the platform: the `int` an out-of-range
`double`-to-`int` conversion yields, and the status `usleep` reports for a
request. -/
structure Platform where
  cvt_oor : Double → Int
  usleep_status : Nat → Int

/-- The x86-64 platform: `cvttsd2si` yields the "integer indefinite" `INT_MIN` for
an out-of-range conversion, and `usleep` reports success. -/
def Platform.x86_64 : Platform := ⟨fun _ => -2147483648, fun _ => 0⟩

/-- The call `usleep(usec)` with an `int` argument: the primitive takes a 32-bit
unsigned `useconds_t`, so it sees the argument modulo `2^32`.  The requested
pause is appended to the log of pauses; the status is the platform's. -/
def usleep (pf : Platform) (usec : Int) (log : List Nat) : Int × List Nat :=
  let u := (usec % 4294967296).toNat
  (pf.usleep_status u, log ++ [u])

/-- An OCaml value: an immediate integer or a boxed float. -/
inductive value where
  | long (n : Int)
  | boxed_double (d : Double)
deriving DecidableEq

/-- The unit value `Val_unit`, which is `Val_long(0)`. -/
def Val_unit : value := value.long 0

/-- Box a `double` for the OCaml heap. -/
def caml_copy_double (d : Double) : value := value.boxed_double d

/-- Read the payload of a boxed float.  An immediate integer has none: the C macro
would dereference it, which is undefined, and OCaml's typing of the primitive
(`float -> unit`) rules it out. -/
def Double_val : value → Option Double
  | value.boxed_double d => some d
  | value.long _ => none

/-- The C `struct timeval`: seconds and microseconds. -/
structure timeval where
  tv_sec : Int
  tv_usec : Int
deriving DecidableEq

/-- What the system clock query does when called: it succeeds with a reading,
or it fails. -/
inductive ClockOutcome where
  | ok (now : timeval)
  | failed
deriving DecidableEq

/-- The call `gettimeofday(&tv, NULL)`: on success the reading is written to the
buffer and the status is `0`; on failure the buffer is left as it was and the
status is `-1`. -/
def gettimeofday (os : ClockOutcome) (tv : timeval) : Int × timeval :=
  match os with
  | ClockOutcome.ok now => (0, now)
  | ClockOutcome.failed => (-1, tv)

/-! ## The two stubs -/

/-- `caml_gettimeofday`: `current_time` is an uninitialised local (its contents
before the call are `uninit`), the status of `gettimeofday` is dropped, and the
result is the boxed `(double)tv_sec + (double)tv_usec / 1000000.`.  The literal
`1000000.` is the same datum as `(double)1000000`. -/
def caml_gettimeofday (os : ClockOutcome) (uninit : timeval) : value :=
  let current_time := (gettimeofday os uninit).2
  caml_copy_double
    (Double.add (Double.ofInt current_time.tv_sec)
      (Double.div (Double.ofInt current_time.tv_usec) (Double.ofInt 1000000)))

/-- `caml_sleep`: `f = Double_val(secs)`, then `usleep((int)(1000000*f))` whose
status is dropped, then `Val_unit`.  The `int` constant `1000000` is converted to
`double` for the product.  The state threaded through is the log of pauses
requested so far; the result is `none` only when `secs` is not a boxed float. -/
def caml_sleep (pf : Platform) (secs : value) (log : List Nat) : Option (value × List Nat) :=
  match Double_val secs with
  | none => none
  | some f =>
    let r := usleep pf (double_to_int pf.cvt_oor (Double.mul (Double.ofInt 1000000) f)) log
    some (Val_unit, r.2)

/-! ## Sanity checks of the format against known bit patterns -/

set_option maxRecDepth 100000 in
set_option exponentiation.threshold 5000 in
theorem ofInt_million_bits : Double.ofInt 1000000 = ⟨false, 1042, 4086334964629504⟩ := by decide

set_option maxRecDepth 100000 in
set_option exponentiation.threshold 5000 in
theorem round_micro_bits : Double.round false 1 1000000 = ⟨false, 1003, 218766855499149⟩ := by
  decide

/-! ## Rounding to nearest: what `round` guarantees -/

namespace Double

theorem log2Fuel_spec : ∀ (fuel x : Nat), 0 < x → x ≤ fuel →
    2 ^ log2Fuel fuel x ≤ x ∧ x < 2 ^ (log2Fuel fuel x + 1) := by
  intro fuel
  induction fuel with
  | zero => intro x h1 h2; omega
  | succ f ih =>
    intro x h1 h2
    unfold log2Fuel
    by_cases hx : x < 2
    · simp only [hx, if_true]
      constructor <;> simp <;> omega
    · simp only [hx, if_false]
      have h := ih (x / 2) (by omega) (by omega)
      rw [pow_succ, pow_succ 2 (log2Fuel f (x / 2) + 1)]
      omega

theorem ilog2_spec (x : Nat) (hx : 0 < x) : 2 ^ ilog2 x ≤ x ∧ x < 2 ^ (ilog2 x + 1) :=
  log2Fuel_spec x x hx (le_refl x)

theorem ilog2_zero : ilog2 0 = 0 := rfl

/-- The value `rne n d` is `n / d` or its successor. -/
theorem rne_cases (n d : Nat) :
    (rne n d = n / d ∧ 2 * (n % d) ≤ d) ∨ (rne n d = n / d + 1 ∧ d ≤ 2 * (n % d)) := by
  unfold rne
  simp only
  by_cases h1 : 2 * (n % d) < d
  · left; simp [h1]; omega
  · by_cases h2 : d < 2 * (n % d)
    · right; simp [h1, h2]; omega
    · simp only [h1, h2, if_false]
      have : n / d % 2 = 0 ∨ n / d % 2 = 1 := by omega
      rcases this with h | h
      · left; rw [h]; omega
      · right; rw [h]; omega

/-- Nearest: no multiple of `d` is closer to `n` than `rne n d * d`. -/
theorem rne_nearest (n d k : Nat) (hd : 0 < d) :
    |(n : ℤ) - (rne n d : ℤ) * d| ≤ |(n : ℤ) - (k : ℤ) * d| := by
  have hdm := Nat.div_add_mod n d
  have hr := Nat.mod_lt n hd
  have hn : (n : ℤ) = (d : ℤ) * ((n / d : ℕ) : ℤ) + ((n % d : ℕ) : ℤ) := by exact_mod_cast hdm.symm
  have hr' : ((n % d : ℕ) : ℤ) < d := by exact_mod_cast hr
  have hr0 : (0 : ℤ) ≤ ((n % d : ℕ) : ℤ) := by positivity
  have hc : ((rne n d : ℕ) : ℤ) = ((n / d : ℕ) : ℤ) ∧ 2 * ((n % d : ℕ) : ℤ) ≤ d ∨
      ((rne n d : ℕ) : ℤ) = ((n / d : ℕ) : ℤ) + 1 ∧ (d : ℤ) ≤ 2 * ((n % d : ℕ) : ℤ) := by
    rcases rne_cases n d with ⟨h1, h2⟩ | ⟨h1, h2⟩
    · left; rw [h1]; exact ⟨rfl, by exact_mod_cast h2⟩
    · right; rw [h1]; exact ⟨by push_cast; rfl, by exact_mod_cast h2⟩
  generalize ((rne n d : ℕ) : ℤ) = m at *
  generalize ((n / d : ℕ) : ℤ) = q at *
  generalize ((n % d : ℕ) : ℤ) = r at *
  generalize (n : ℤ) = N at *
  generalize (d : ℤ) = D at *
  generalize (k : ℤ) = K at *
  subst hn
  have hk : K ≤ q ∨ q + 1 ≤ K := by omega
  have key : min r (D - r) ≤ |D * q + r - K * D| := by
    rcases hk with hk | hk
    · have : K * D ≤ q * D := by nlinarith
      rw [abs_of_nonneg (by nlinarith)]
      have : min r (D - r) ≤ r := min_le_left _ _
      nlinarith
    · have : (q + 1) * D ≤ K * D := by nlinarith
      rw [abs_of_nonpos (by nlinarith)]
      have : min r (D - r) ≤ D - r := min_le_right _ _
      nlinarith
  refine le_trans ?_ key
  rcases hc with ⟨h1, h2⟩ | ⟨h1, h2⟩
  · subst h1
    rw [show D * m + r - m * D = r by ring, abs_of_nonneg hr0]
    exact le_min (le_refl _) (by linarith)
  · subst h1
    rw [show D * q + r - (q + 1) * D = -(D - r) by ring, abs_neg, abs_of_nonneg (by linarith)]
    exact le_min (by linarith) (le_refl _)

/-- Upper bound: `rne n d` does not exceed an integer bound of `n / d`. -/
theorem rne_le (n d b : Nat) (hd : 0 < d) (h : n ≤ b * d) : rne n d ≤ b := by
  have hdm := Nat.div_add_mod n d
  have hq : n / d ≤ b := by
    rw [Nat.div_le_iff_le_mul_add_pred hd]
    nlinarith
  rcases rne_cases n d with ⟨h1, _⟩ | ⟨h1, h2⟩
  · omega
  · rw [h1]
    by_contra hc
    have hqb : n / d = b := by omega
    rw [hqb] at hdm
    have : d * b = b * d := Nat.mul_comm _ _
    omega

/-- Lower bound: `rne n d` is at least an integer bound of `n / d`. -/
theorem le_rne (n d a : Nat) (hd : 0 < d) (h : a * d ≤ n) : a ≤ rne n d := by
  have hq : a ≤ n / d := (Nat.le_div_iff_mul_le hd).2 h
  rcases rne_cases n d with ⟨h1, _⟩ | ⟨h1, _⟩ <;> omega


/-- Shape of the rounded significand: at most `2^53`, and at least `2^52` (with
the value itself at least `2^52` quanta) once the quantum is above the smallest. -/
theorem rsig_bounds (n d : Nat) (hd : 0 < d) :
    rsig n d ≤ 9007199254740992 ∧
    (0 < rshift n d → 4503599627370496 ≤ rsig n d ∧
      4503599627370496 * (d * 2 ^ rshift n d) ≤ n * scale) := by
  unfold rsig rshift
  generalize n * scale = y
  have hD : ∀ s, 0 < d * 2 ^ s := fun s => Nat.mul_pos hd (by positivity)
  by_cases hx : y / d = 0
  · rw [hx, ilog2_zero]
    have hy : y < d := by
      rcases (Nat.div_eq_zero_iff hd).1 hx with h
      exact h
    refine ⟨?_, by intro h; omega⟩
    have : rne y (d * 2 ^ (0 - 52)) ≤ 1 := rne_le _ _ 1 (hD _) (by simp; omega)
    omega
  · obtain ⟨h1, h2⟩ := ilog2_spec (y / d) (Nat.pos_of_ne_zero hx)
    generalize ilog2 (y / d) = L at *
    have h1' : 2 ^ L * d ≤ y := (Nat.le_div_iff_mul_le hd).1 h1
    have h2' : y < 2 ^ (L + 1) * d := (Nat.div_lt_iff_lt_mul hd).1 h2
    by_cases hL : L ≤ 52
    · have hs : L - 52 = 0 := by omega
      rw [hs]
      refine ⟨?_, by intro h; omega⟩
      apply rne_le _ _ _ (hD _)
      have : 2 ^ (L + 1) ≤ 2 ^ 53 := Nat.pow_le_pow_right (by norm_num) (by omega)
      have : 2 ^ (L + 1) * d ≤ 2 ^ 53 * d := Nat.mul_le_mul_right _ this
      simp only [pow_zero, mul_one]
      norm_num at this
      omega
    · have hLs : L = 52 + (L - 52) := by omega
      have e1 : 2 ^ L * d = 4503599627370496 * (d * 2 ^ (L - 52)) := by
        conv_lhs => rw [hLs, pow_add]
        norm_num; ring
      have e2 : 2 ^ (L + 1) * d = 9007199254740992 * (d * 2 ^ (L - 52)) := by
        conv_lhs => rw [hLs, show 52 + (L - 52) + 1 = 53 + (L - 52) by omega, pow_add]
        norm_num; ring
      rw [e1] at h1'
      rw [e2] at h2'
      refine ⟨rne_le _ _ _ (hD _) (le_of_lt h2'), fun _ => ⟨le_rne _ _ _ (hD _) h1', h1'⟩⟩

/-- When the packed result is below the all-ones exponent, `round` is finite,
has the requested sign, and its magnitude is the significand times the quantum. -/
theorem round_units (neg : Bool) (n d : Nat) (hd : 0 < d)
    (hb : rshift n d * 4503599627370496 + rsig n d < 2047 * 4503599627370496) :
    (round neg n d).isFinite ∧ (round neg n d).sign = neg ∧
      (round neg n d).units = rsig n d * 2 ^ rshift n d := by
  obtain ⟨hm, hs⟩ := rsig_bounds n d hd
  unfold round
  simp only [hb, dif_pos]
  refine ⟨?_, trivial, ?_⟩
  · unfold isFinite; simp only; omega
  · unfold units
    simp only
    generalize rsig n d = m at *
    generalize rshift n d = s at *
    by_cases hs0 : s = 0
    · subst hs0
      by_cases hm1 : m < 4503599627370496
      · rw [if_pos (by omega)]; simp; omega
      · rw [if_neg (by omega)]
        by_cases hm2 : m = 9007199254740992
        · subst hm2; norm_num
        · have e1 : (0 * 4503599627370496 + m) / 4503599627370496 = 1 := by omega
          have e2 : (0 * 4503599627370496 + m) % 4503599627370496 = m - 4503599627370496 := by
            omega
          rw [e1, e2]; simp; omega
    · have hm1 := (hs (by omega)).1
      rw [if_neg (by omega)]
      by_cases hm2 : m = 9007199254740992
      · subst hm2
        have e1 : (s * 4503599627370496 + 9007199254740992) / 4503599627370496 = s + 2 := by omega
        have e2 : (s * 4503599627370496 + 9007199254740992) % 4503599627370496 = 0 := by omega
        rw [e1, e2]
        simp only [add_zero, Nat.add_sub_cancel]
        rw [show s + 2 - 1 = s + 1 by omega, pow_succ]; ring
      · have e1 : (s * 4503599627370496 + m) / 4503599627370496 = s + 1 := by omega
        have e2 : (s * 4503599627370496 + m) % 4503599627370496 = m - 4503599627370496 := by
          omega
        rw [e1, e2]
        simp only [Nat.add_sub_cancel]
        rw [show 4503599627370496 + (m - 4503599627370496) = m by omega]

/-- The result of `round` is finite exactly when the packed value is below the
all-ones exponent. -/
theorem round_finite_iff (neg : Bool) (n d : Nat) (hd : 0 < d) :
    (round neg n d).isFinite ↔
      rshift n d * 4503599627370496 + rsig n d < 2047 * 4503599627370496 := by
  constructor
  · intro h
    by_contra hc
    unfold round at h
    simp only [hc, dif_neg, not_false_eq_true] at h
    have h2 : ((2047 : Fin 2048) : ℕ) < 2047 := h
    exact absurd h2 (by decide)
  · intro h
    exact (round_units neg n d hd h).1

/-- The magnitude of any datum is a significand below `2^53` times a power of two. -/
theorem units_form (x : Double) :
    ∃ M t : ℕ, M < 9007199254740992 ∧ x.units = M * 2 ^ t := by
  have hf := x.frac.isLt
  unfold units
  by_cases h : x.exp.val = 0
  · exact ⟨x.frac.val, 0, by omega, by simp [h]⟩
  · exact ⟨4503599627370496 + x.frac.val, x.exp.val - 1, by omega, by simp [h]⟩

/-- Nearest, in integers: among all `M * 2^t` with `M ≤ 2^53`, none is closer to
`n * 2^1074 / d` than the rounded significand times the quantum. -/
theorem round_nearest_int (n d M t : Nat) (hd : 0 < d) (hM : M ≤ 9007199254740992) :
    |((n * scale : ℕ) : ℤ) - ((rsig n d * 2 ^ rshift n d : ℕ) : ℤ) * d| ≤
      |((n * scale : ℕ) : ℤ) - ((M * 2 ^ t : ℕ) : ℤ) * d| := by
  obtain ⟨_, hs⟩ := rsig_bounds n d hd
  have hD : 0 < d * 2 ^ rshift n d := Nat.mul_pos hd (by positivity)
  have near := fun k => rne_nearest (n * scale) (d * 2 ^ rshift n d) k hD
  change ∀ k, |((n * scale : ℕ) : ℤ) - ((rsig n d : ℕ) : ℤ) * _| ≤ _ at near
  generalize rsig n d = m at *
  generalize rshift n d = s at *
  generalize n * scale = y at *
  have el : ((m * 2 ^ s : ℕ) : ℤ) * d = (m : ℤ) * ((d * 2 ^ s : ℕ) : ℤ) := by push_cast; ring
  rw [el]
  by_cases hst : s ≤ t
  · have := near (M * 2 ^ (t - s))
    have er : ((M * 2 ^ (t - s) : ℕ) : ℤ) * ((d * 2 ^ s : ℕ) : ℤ) = ((M * 2 ^ t : ℕ) : ℤ) * d := by
      have : t = (t - s) + s := by omega
      conv_rhs => rw [this, pow_add]
      push_cast; ring
    rw [er] at this
    exact this
  · have hs0 : 0 < s := by omega
    obtain ⟨_, hy⟩ := hs hs0
    have h1 := near 4503599627370496
    refine le_trans h1 ?_
    have hts : s = (s - 1 - t) + t + 1 := by omega
    have hle : M * 2 ^ t * d ≤ 4503599627370496 * (d * 2 ^ s) := by
      have h2 : 2 ^ s = 2 ^ (s - 1 - t) * 2 ^ t * 2 := by
        conv_lhs => rw [hts, pow_succ, pow_add]
      have h3 : 1 ≤ 2 ^ (s - 1 - t) := Nat.one_le_two_pow
      have h4 : M * 2 ^ t * d ≤ 9007199254740992 * 2 ^ t * d :=
        Nat.mul_le_mul_right _ (Nat.mul_le_mul_right _ hM)
      have h5 : 9007199254740992 * 2 ^ t * d * 1 ≤ 9007199254740992 * 2 ^ t * d * 2 ^ (s - 1 - t) :=
        Nat.mul_le_mul_left _ h3
      rw [h2]
      calc M * 2 ^ t * d ≤ 9007199254740992 * 2 ^ t * d * 2 ^ (s - 1 - t) := by omega
        _ = 4503599627370496 * (d * (2 ^ (s - 1 - t) * 2 ^ t * 2)) := by ring
    have hleZ : ((M * 2 ^ t : ℕ) : ℤ) * d ≤ ((4503599627370496 : ℕ) : ℤ) * ((d * 2 ^ s : ℕ) : ℤ) := by
      exact_mod_cast hle
    have hyZ : ((4503599627370496 : ℕ) : ℤ) * ((d * 2 ^ s : ℕ) : ℤ) ≤ (y : ℤ) := by
      exact_mod_cast hy
    rw [abs_of_nonneg (by linarith), abs_of_nonneg (by linarith)]
    linarith

theorem abs_sgn (neg : Bool) : |sgn neg| = 1 := by
  cases neg <;> simp [sgn]

/-- The rational value of a datum is its sign times its magnitude. -/
theorem toRat_eq (x : Double) : x.toRat = sgn x.sign * ((x.units : ℚ) / (scale : ℚ)) := by
  unfold toRat sunits sgn
  cases x.sign <;> simp
  ring

/-- Distance between two fractions, over a common denominator. -/
theorem abs_frac_sub (n d U P : ℕ) (hd : 0 < d) (hP : 0 < P) :
    |(n : ℚ) / d - (U : ℚ) / P| = ((|((n * P : ℕ) : ℤ) - (U : ℤ) * d| : ℤ) : ℚ) / (d * P) := by
  have hdQ : (0 : ℚ) < d := by exact_mod_cast hd
  have hPQ : (0 : ℚ) < P := by exact_mod_cast hP
  have : (n : ℚ) / d - (U : ℚ) / P =
      (((((n * P : ℕ) : ℤ) - (U : ℤ) * d : ℤ)) : ℚ) / (d * P) := by
    push_cast
    field_simp
    ring
  rw [this, abs_div, abs_of_pos (mul_pos hdQ hPQ), Int.cast_abs]

theorem scale_pos : 0 < scale := by
  unfold scale
  positivity

theorem scale_posQ : (0 : ℚ) < (scale : ℚ) := by exact_mod_cast scale_pos

/-- A finite result of `round` is a nearest value to the signed `n / d`. -/
theorem round_near (neg : Bool) (n d : Nat) (hd : 0 < d) (hfin : (round neg n d).isFinite) :
    Near (sgn neg * ((n : ℚ) / d)) (round neg n d) := by
  have hb := (round_finite_iff neg n d hd).1 hfin
  obtain ⟨_, hsign, hunits⟩ := round_units neg n d hd hb
  intro c t hc
  have hM : c.natAbs ≤ 9007199254740992 := by
    have : (c.natAbs : ℤ) = |c| := Int.natCast_natAbs c
    omega
  have key := round_nearest_int n d c.natAbs t hd hM
  rw [← hunits] at key
  have hdQ : (0 : ℚ) < d := by exact_mod_cast hd
  have keyQ : |(n : ℚ) / d - ((round neg n d).units : ℚ) / (scale : ℚ)| ≤
      |(n : ℚ) / d - ((c.natAbs * 2 ^ t : ℕ) : ℚ) / (scale : ℚ)| := by
    rw [abs_frac_sub _ _ _ _ hd scale_pos, abs_frac_sub _ _ _ _ hd scale_pos]
    have hden : (0 : ℚ) ≤ (d : ℚ) * (scale : ℚ) := le_of_lt (mul_pos hdQ scale_posQ)
    apply div_le_div_of_nonneg_right _ hden
    exact_mod_cast key
  rw [toRat_eq, hsign, ← mul_sub, abs_mul, abs_sgn, one_mul]
  refine le_trans keyQ ?_
  have h1 : |sgn neg * ((n : ℚ) / d)| = (n : ℚ) / d := by
    rw [abs_mul, abs_sgn, one_mul, abs_of_nonneg (by positivity)]
  have h2 : |(c : ℚ) * 2 ^ t / (scale : ℚ)| = ((c.natAbs * 2 ^ t : ℕ) : ℚ) / (scale : ℚ) := by
    rw [abs_div, abs_mul, abs_of_pos scale_posQ,
      abs_of_pos (by positivity : (0 : ℚ) < 2 ^ t), Nat.cast_mul, Nat.cast_pow, Nat.cast_ofNat,
      Nat.cast_natAbs, Int.cast_abs]
  have h3 := abs_abs_sub_abs_le_abs_sub (sgn neg * ((n : ℚ) / d)) ((c : ℚ) * 2 ^ t / (scale : ℚ))
  rw [h1, h2] at h3
  exact h3

/-- Every datum is itself one of the candidates `Near` compares against. -/
theorem Near.double {q : ℚ} {r : Double} (h : Near q r) (z : Double) :
    |q - r.toRat| ≤ |q - z.toRat| := by
  obtain ⟨M, t, hM, hu⟩ := units_form z
  have hz : z.toRat = ((if z.sign then -(M : ℤ) else (M : ℤ)) : ℤ) * 2 ^ t / (scale : ℚ) := by
    rw [toRat_eq, hu]
    unfold sgn
    cases z.sign <;> simp
    ring
  rw [hz]
  apply h
  cases z.sign <;> simp <;> omega

/-- A nearest value does not jump over a candidate above the exact value. -/
theorem Near.le_cand {q : ℚ} {r : Double} (h : Near q r) (c : ℤ) (t : ℕ)
    (hc : |c| ≤ 9007199254740992) (hq : q ≤ c * 2 ^ t / (scale : ℚ)) :
    r.toRat ≤ c * 2 ^ t / (scale : ℚ) := by
  have h1 := h c t hc
  rw [abs_of_nonpos (by linarith : q - c * 2 ^ t / (scale : ℚ) ≤ 0)] at h1
  have h2 := neg_abs_le (q - r.toRat)
  linarith

/-- A nearest value does not jump over a candidate below the exact value. -/
theorem Near.cand_le {q : ℚ} {r : Double} (h : Near q r) (c : ℤ) (t : ℕ)
    (hc : |c| ≤ 9007199254740992) (hq : c * 2 ^ t / (scale : ℚ) ≤ q) :
    c * 2 ^ t / (scale : ℚ) ≤ r.toRat := by
  have h1 := h c t hc
  rw [abs_of_nonneg (by linarith : 0 ≤ q - c * 2 ^ t / (scale : ℚ))] at h1
  have h2 := le_abs_self (q - r.toRat)
  linarith

theorem Near.nonneg {q : ℚ} {r : Double} (h : Near q r) (hq : 0 ≤ q) : 0 ≤ r.toRat := by
  have := h.cand_le 0 0 (by norm_num) (by simpa using hq)
  simpa using this

theorem Near.nonpos {q : ℚ} {r : Double} (h : Near q r) (hq : q ≤ 0) : r.toRat ≤ 0 := by
  have := h.le_cand 0 0 (by norm_num) (by simpa using hq)
  simpa using this

/-- Rounding to nearest is monotone. -/
theorem Near.mono {q q' : ℚ} {r r' : Double} (h : Near q r) (h' : Near q' r') (hq : q < q') :
    r.toRat ≤ r'.toRat := by
  by_contra hc
  push_neg at hc
  have h1 := sq_le_sq.2 (h.double r')
  have h2 := sq_le_sq.2 (h'.double r)
  have e1 : 0 ≤ (r.toRat - r'.toRat) * (2 * q - r.toRat - r'.toRat) := by nlinarith
  have e2 : 0 ≤ (r.toRat - r'.toRat) * (r.toRat + r'.toRat - 2 * q') := by nlinarith
  have e3 : 0 ≤ (r.toRat - r'.toRat) * (2 * q - 2 * q') := by nlinarith
  have e4 : (r.toRat - r'.toRat) * (2 * q - 2 * q') < 0 :=
    mul_neg_of_pos_of_neg (by linarith) (by linarith)
  linarith

/-- Rounding error: when `|q|` is at most `2^53` quanta of `2^e` units, the
nearest value is within half a quantum. -/
theorem Near.error {q : ℚ} {r : Double} (h : Near q r) (e : ℕ)
    (hq : |q| ≤ 9007199254740992 * 2 ^ e / (scale : ℚ)) :
    |q - r.toRat| ≤ 2 ^ e / (scale : ℚ) / 2 := by
  have hs := scale_posQ
  have he : (0 : ℚ) < 2 ^ e := by positivity
  set u : ℚ := 2 ^ e / (scale : ℚ) with hu
  have hupos : 0 < u := div_pos he hs
  set a : ℚ := q / u with ha
  have hqa : q = a * u := by rw [ha]; field_simp
  have habs : |a| ≤ 9007199254740992 := by
    rw [ha, abs_div, abs_of_pos hupos, div_le_iff₀ hupos]
    calc |q| ≤ 9007199254740992 * 2 ^ e / (scale : ℚ) := hq
      _ = 9007199254740992 * u := by rw [hu]; ring
  have hfl := Int.floor_le a
  have hfl2 := Int.lt_floor_add_one a
  obtain ⟨hlo, hhi⟩ := abs_le.1 habs
  have hcand : ∀ c : ℤ, c * 2 ^ e / (scale : ℚ) = c * u := by
    intro c; rw [hu]; ring
  have hc1 : (-9007199254740992 : ℤ) ≤ ⌊a⌋ := by
    apply Int.le_floor.2
    push_cast; linarith
  have hc2 : ⌊a⌋ ≤ (9007199254740992 : ℤ) := by
    have : ((⌊a⌋ : ℤ) : ℚ) ≤ ((9007199254740992 : ℤ) : ℚ) := by push_cast; linarith
    exact_mod_cast this
  by_cases hhalf : a - ⌊a⌋ ≤ 1 / 2
  · have h1 := h ⌊a⌋ e (abs_le.2 ⟨by omega, by omega⟩)
    rw [hcand, hqa, ← sub_mul, abs_mul, abs_of_pos hupos,
      abs_of_nonneg (by linarith : (0 : ℚ) ≤ a - ⌊a⌋)] at h1
    rw [← hqa] at h1
    calc |q - r.toRat| ≤ (a - ⌊a⌋) * u := h1
      _ ≤ 1 / 2 * u := by apply mul_le_mul_of_nonneg_right hhalf (le_of_lt hupos)
      _ = u / 2 := by ring
  · push_neg at hhalf
    have hlt : ⌊a⌋ < (9007199254740992 : ℤ) := by
      rcases lt_or_eq_of_le hc2 with h3 | h3
      · exact h3
      · exfalso
        have : ((⌊a⌋ : ℤ) : ℚ) = 9007199254740992 := by rw [h3]; norm_num
        linarith
    have h1 := h (⌊a⌋ + 1) e (abs_le.2 ⟨by omega, by omega⟩)
    rw [hcand, hqa, ← sub_mul, abs_mul, abs_of_pos hupos] at h1
    rw [abs_of_nonpos (by push_cast; linarith : a - ((⌊a⌋ + 1 : ℤ) : ℚ) ≤ 0)] at h1
    rw [← hqa] at h1
    calc |q - r.toRat| ≤ -(a - ((⌊a⌋ + 1 : ℤ) : ℚ)) * u := h1
      _ ≤ 1 / 2 * u := by
          apply mul_le_mul_of_nonneg_right _ (le_of_lt hupos)
          push_cast; linarith
      _ = u / 2 := by ring

theorem not_isNaN_of_isFinite {x : Double} (h : x.isFinite) : ¬ x.isNaN := by
  unfold isFinite at h; unfold isNaN; omega

theorem not_isInf_of_isFinite {x : Double} (h : x.isFinite) : ¬ x.isInf := by
  unfold isFinite at h; unfold isInf; omega

/-- Rounding stays finite when `n / d` is at most `2^1022`. -/
theorem round_finite (neg : Bool) (n d : Nat) (hd : 0 < d) (k : ℕ) (hk : k ≤ 1022)
    (h : n ≤ 2 ^ k * d) : (round neg n d).isFinite := by
  rw [round_finite_iff neg n d hd]
  obtain ⟨hm, _⟩ := rsig_bounds n d hd
  have hs : rshift n d ≤ 2044 := by
    unfold rshift
    by_cases hx : n * scale / d = 0
    · rw [hx, ilog2_zero]; omega
    · obtain ⟨h1, _⟩ := ilog2_spec _ (Nat.pos_of_ne_zero hx)
      have h2 : n * scale / d ≤ 2 ^ k * scale := by
        apply Nat.div_le_of_le_mul
        calc n * scale ≤ 2 ^ k * d * scale := Nat.mul_le_mul_right _ h
          _ = d * (2 ^ k * scale) := by ring
      have h3 : 2 ^ k * scale = 2 ^ (k + 1074) := by unfold scale; rw [pow_add]
      rw [h3] at h2
      have h4 : 2 ^ ilog2 (n * scale / d) ≤ 2 ^ (k + 1074) := le_trans h1 h2
      have h5 := (Nat.pow_le_pow_iff_right (by norm_num : 1 < 2)).1 h4
      omega
  omega

/-- The conversion of an integer, when finite, is a nearest value to it. -/
theorem ofInt_near (i : ℤ) (h : (ofInt i).isFinite) : Near (i : ℚ) (ofInt i) := by
  have := round_near (decide (i < 0)) i.natAbs 1 (by norm_num) h
  have e : sgn (decide (i < 0)) * ((i.natAbs : ℚ) / ((1 : ℕ) : ℚ)) = (i : ℚ) := by
    unfold sgn
    rw [Nat.cast_one, div_one, Nat.cast_natAbs, Int.cast_abs]
    by_cases hi : i < 0
    · have : (i : ℚ) < 0 := by exact_mod_cast hi
      simp [hi, abs_of_neg this]
    · have : (0 : ℚ) ≤ i := by exact_mod_cast (not_lt.1 hi)
      simp [hi, abs_of_nonneg this]
  rw [e] at this
  exact this

/-- Integers of magnitude at most `2^1022` convert to a finite value. -/
theorem ofInt_finite (i : ℤ) (k : ℕ) (hk : k ≤ 1022) (h : |i| ≤ 2 ^ k) : (ofInt i).isFinite := by
  apply round_finite _ _ _ (by norm_num) k hk
  have : (i.natAbs : ℤ) = |i| := Int.natCast_natAbs i
  have h2 : (i.natAbs : ℤ) ≤ ((2 ^ k : ℕ) : ℤ) := by rw [this]; exact_mod_cast h
  have h3 : i.natAbs ≤ 2 ^ k := by exact_mod_cast h2
  simpa using h3

theorem sgn_xor (a b : Bool) : sgn (xor a b) = sgn a * sgn b := by
  cases a <;> cases b <;> simp [sgn]

/-- On finite operands, multiplication is the rounded exact product. -/
theorem mul_eq_round (a b : Double) (ha : a.isFinite) (hb : b.isFinite) :
    mul a b = round (xor a.sign b.sign) (a.units * b.units) (scale * scale) := by
  unfold mul
  simp only [not_isNaN_of_isFinite ha, not_isNaN_of_isFinite hb, not_isInf_of_isFinite ha,
    not_isInf_of_isFinite hb, or_self, if_false]

theorem mul_near (a b : Double) (ha : a.isFinite) (hb : b.isFinite)
    (h : (mul a b).isFinite) : Near (a.toRat * b.toRat) (mul a b) := by
  rw [mul_eq_round a b ha hb] at h ⊢
  have := round_near _ _ _ (Nat.mul_pos scale_pos scale_pos) h
  have e : sgn (xor a.sign b.sign) * (((a.units * b.units : ℕ) : ℚ) / ((scale * scale : ℕ) : ℚ)) =
      a.toRat * b.toRat := by
    rw [toRat_eq, toRat_eq, sgn_xor]
    push_cast
    have := scale_posQ
    field_simp
    ring
  rw [e] at this
  exact this

/-- On finite operands with a non-zero divisor, division is the rounded exact quotient. -/
theorem div_eq_round (a b : Double) (ha : a.isFinite) (hb : b.isFinite) (hz : ¬ b.isZero) :
    div a b = round (xor a.sign b.sign) a.units b.units := by
  unfold div
  simp only [not_isNaN_of_isFinite ha, not_isNaN_of_isFinite hb, not_isInf_of_isFinite ha,
    not_isInf_of_isFinite hb, or_self, if_false, hz]

theorem units_pos_of_not_isZero {b : Double} (hz : ¬ b.isZero) : 0 < b.units := by
  unfold isZero at hz
  unfold units
  by_cases h : b.exp.val = 0
  · simp only [h, if_true]; omega
  · simp only [h, if_false]; positivity

theorem div_near (a b : Double) (ha : a.isFinite) (hb : b.isFinite) (hz : ¬ b.isZero)
    (h : (div a b).isFinite) : Near (a.toRat / b.toRat) (div a b) := by
  rw [div_eq_round a b ha hb hz] at h ⊢
  have hu := units_pos_of_not_isZero hz
  have := round_near _ _ _ hu h
  have huQ : (0 : ℚ) < b.units := by exact_mod_cast hu
  have e : sgn (xor a.sign b.sign) * ((a.units : ℚ) / (b.units : ℚ)) = a.toRat / b.toRat := by
    rw [toRat_eq, toRat_eq, sgn_xor]
    have := scale_posQ
    have hsb : sgn b.sign ≠ 0 := by cases b.sign <;> simp [sgn]
    have hsb2 : sgn b.sign * sgn b.sign = 1 := by cases b.sign <;> simp [sgn]
    field_simp
    calc sgn a.sign * sgn b.sign * ↑a.units * (sgn b.sign * ↑b.units)
        = (sgn b.sign * sgn b.sign) * (sgn a.sign * ↑a.units * ↑b.units) := by ring
      _ = sgn a.sign * ↑a.units * ↑b.units := by rw [hsb2, one_mul]
  rw [e] at this
  exact this

theorem toRat_eq_sunits (x : Double) : x.toRat = (x.sunits : ℚ) / (scale : ℚ) := rfl

theorem toRat_zero (neg : Bool) : (zero neg).toRat = 0 := by
  rw [toRat_eq]
  have : (zero neg).units = 0 := rfl
  rw [this]; simp

/-- On finite operands, addition is the rounded exact sum (an exact zero sum is a zero). -/
theorem add_eq_round (a b : Double) (ha : a.isFinite) (hb : b.isFinite) :
    add a b = if a.sunits + b.sunits = 0 then zero (a.sign && b.sign)
      else round (decide (a.sunits + b.sunits < 0)) (a.sunits + b.sunits).natAbs scale := by
  unfold add
  simp only [not_isNaN_of_isFinite ha, not_isNaN_of_isFinite hb, not_isInf_of_isFinite ha,
    not_isInf_of_isFinite hb, or_self, if_false]

theorem add_near (a b : Double) (ha : a.isFinite) (hb : b.isFinite)
    (h : (add a b).isFinite) : Near (a.toRat + b.toRat) (add a b) := by
  rw [add_eq_round a b ha hb] at h ⊢
  have hsum : a.toRat + b.toRat = ((a.sunits + b.sunits : ℤ) : ℚ) / (scale : ℚ) := by
    rw [toRat_eq_sunits, toRat_eq_sunits]; push_cast; ring
  by_cases hk : a.sunits + b.sunits = 0
  · simp only [hk, if_true]
    intro c t _
    rw [hsum, hk, toRat_zero]
    simp
  · simp only [hk, if_false] at h ⊢
    have := round_near _ _ _ scale_pos h
    have e : sgn (decide (a.sunits + b.sunits < 0)) *
        (((a.sunits + b.sunits).natAbs : ℚ) / (scale : ℚ)) = a.toRat + b.toRat := by
      rw [hsum]
      generalize a.sunits + b.sunits = k
      unfold sgn
      rw [Nat.cast_natAbs, Int.cast_abs]
      by_cases hi : k < 0
      · have : (k : ℚ) < 0 := by exact_mod_cast hi
        simp [hi, abs_of_neg this]
        ring
      · have : (0 : ℚ) ≤ k := by exact_mod_cast (not_lt.1 hi)
        simp [hi, abs_of_nonneg this]
    rw [e] at this
    exact this

end Double

open Double

/-! ## Truncation and the call to `usleep` (C2) -/

theorem floor_natCast_div (u s : ℕ) : ⌊(u : ℚ) / (s : ℚ)⌋ = ((u / s : ℕ) : ℤ) := by
  rw [Rat.floor_natCast_div_natCast, Int.natCast_div]

/-- The truncation of a finite datum is the floor of a non-negative value and the
ceiling of a non-positive one. -/
theorem Double.truncate_spec (x : Double) (h : x.isFinite) :
    ∃ n : ℤ, x.truncate = some n ∧ (0 ≤ x.toRat → n = ⌊x.toRat⌋) ∧
      (x.toRat ≤ 0 → n = ⌈x.toRat⌉) := by
  have hs := scale_posQ
  have hfl := floor_natCast_div x.units scale
  have hu0 : (0 : ℚ) ≤ (x.units : ℚ) / (scale : ℚ) :=
    div_nonneg (Nat.cast_nonneg _) (Nat.cast_nonneg _)
  unfold truncate
  rw [if_pos h, toRat_eq]
  unfold sgn
  cases hsg : x.sign
  · refine ⟨_, rfl, ?_, ?_⟩
    · intro _; simp [hfl]
    · intro hle
      have h0 : (x.units : ℚ) / (scale : ℚ) = 0 := by
        simp at hle; linarith
      have : x.units / scale = 0 := by
        have := hfl; rw [h0] at this; simp at this; exact_mod_cast this.symm
      simp [h0, this]
  · refine ⟨_, rfl, ?_, ?_⟩
    · intro hge
      have h0 : (x.units : ℚ) / (scale : ℚ) = 0 := by
        simp at hge; linarith
      have : x.units / scale = 0 := by
        have := hfl; rw [h0] at this; simp at this; exact_mod_cast this.symm
      simp [h0, this]
    · intro _
      simp only [if_true, neg_mul, one_mul, Int.ceil_neg, hfl]

theorem caml_sleep_eq (pf : Platform) (d : Double) (log : List Nat) :
    caml_sleep pf (caml_copy_double d) log =
      some (Val_unit,
        (usleep pf (double_to_int pf.cvt_oor (Double.mul (Double.ofInt 1000000) d)) log).2) := rfl

set_option maxRecDepth 100000 in
set_option exponentiation.threshold 5000 in
theorem million_units : (Double.ofInt 1000000).units = 1000000 * scale := by decide

theorem million_finite : (Double.ofInt 1000000).isFinite := by
  rw [ofInt_million_bits]; decide

theorem million_sign : (Double.ofInt 1000000).sign = false := by
  rw [ofInt_million_bits]

theorem million_toRat : (Double.ofInt 1000000).toRat = 1000000 := by
  rw [toRat_eq, million_units, million_sign]
  have := scale_posQ
  unfold sgn
  push_cast
  field_simp

/-- A product is finite only if both factors are. -/
theorem Double.isFinite_of_mul {a b : Double} (h : (Double.mul a b).isFinite) :
    a.isFinite ∧ b.isFinite := by
  unfold Double.mul at h
  by_cases h1 : a.isNaN ∨ b.isNaN
  · rw [if_pos h1] at h; exact absurd h (by decide)
  · rw [if_neg h1] at h
    by_cases h2 : a.isInf ∨ b.isInf
    · rw [if_pos h2] at h
      by_cases h3 : a.isZero ∨ b.isZero
      · rw [if_pos h3] at h; exact absurd h (by decide)
      · rw [if_neg h3] at h
        have : ¬ (Double.inf (xor a.sign b.sign)).isFinite := by
          intro hc
          have h4 : ((2047 : Fin 2048) : ℕ) < 2047 := hc
          exact absurd h4 (by decide)
        exact absurd h this
    · unfold Double.isNaN at h1
      unfold Double.isInf at h2
      unfold Double.isFinite
      have ha := a.exp.isLt
      have hb := b.exp.isLt
      push_neg at h1 h2
      constructor
      · by_contra hc
        have e : a.exp.val = 2047 := by omega
        by_cases f : a.frac.val = 0
        · exact h2.1 e f
        · exact f (h1.1 e)
      · by_contra hc
        have e : b.exp.val = 2047 := by omega
        by_cases f : b.frac.val = 0
        · exact h2.2 e f
        · exact f (h1.2 e)

/-- The microsecond count `1000000*f` of a finite product is a nearest value to
the exact product. -/
theorem micros_near (d : Double) (h : (Double.mul (Double.ofInt 1000000) d).isFinite) :
    Near (1000000 * d.toRat) (Double.mul (Double.ofInt 1000000) d) := by
  have := mul_near _ _ million_finite (Double.isFinite_of_mul h).2 h
  rw [million_toRat] at this
  exact this

theorem usleep_log (pf : Platform) (n : ℤ) (log : List Nat) :
    (usleep pf n log).2 = log ++ [(n % 4294967296).toNat] := rfl

theorem usleep_lt (n : ℤ) : (n % 4294967296).toNat < 4294967296 := by
  have h1 := Int.emod_nonneg n (by norm_num : (4294967296 : ℤ) ≠ 0)
  have h2 := Int.emod_lt_of_pos n (by norm_num : (0 : ℤ) < 4294967296)
  omega

/-- When the truncated product is an `int`, it is the argument of `usleep`. -/
theorem caml_sleep_in_range (pf : Platform) (d : Double) (log : List Nat) (n : ℤ)
    (ht : (Double.mul (Double.ofInt 1000000) d).truncate = some n)
    (hlo : INT_MIN ≤ n) (hhi : n ≤ INT_MAX) :
    caml_sleep pf (caml_copy_double d) log = some (Val_unit, (usleep pf n log).2) := by
  rw [caml_sleep_eq]
  unfold double_to_int
  rw [ht]
  simp only [hlo, hhi, and_self, if_true]

/-- Otherwise it is whatever the platform's conversion yields. -/
theorem caml_sleep_oor (pf : Platform) (d : Double) (log : List Nat)
    (ht : ∀ n, (Double.mul (Double.ofInt 1000000) d).truncate = some n → INT_MAX < n) :
    caml_sleep pf (caml_copy_double d) log = some (Val_unit,
      (usleep pf ((pf.cvt_oor (Double.mul (Double.ofInt 1000000) d)).bmod 4294967296) log).2) := by
  rw [caml_sleep_eq]
  unfold double_to_int
  cases hc : (Double.mul (Double.ofInt 1000000) d).truncate with
  | none => rfl
  | some n =>
    have := ht n hc
    simp only
    rw [if_neg (by omega)]


/-- Claim C2. Whenever the microsecond product `1000000*f` the code computes is
finite and lies in the range of a 32-bit `int`, `caml_sleep` calls `usleep` with
exactly that product truncated toward zero (its floor when non-negative, its
ceiling when negative), never a rounding to nearest, and returns unit. -/
theorem caml_sleep_truncates (pf : Platform) (d : Double) (log : List Nat)
    (hfin : (Double.mul (Double.ofInt 1000000) d).isFinite)
    (hlo : (-2147483648 : ℚ) ≤ (Double.mul (Double.ofInt 1000000) d).toRat)
    (hhi : (Double.mul (Double.ofInt 1000000) d).toRat ≤ 2147483647) :
    caml_sleep pf (caml_copy_double d) log =
      some (Val_unit, (usleep pf
        (if 0 ≤ (Double.mul (Double.ofInt 1000000) d).toRat
          then ⌊(Double.mul (Double.ofInt 1000000) d).toRat⌋
          else ⌈(Double.mul (Double.ofInt 1000000) d).toRat⌉) log).2) := by
  obtain ⟨n, ht, hf, hc⟩ := Double.truncate_spec _ hfin
  generalize hpe : Double.mul (Double.ofInt 1000000) d = p at ht hf hc hlo hhi ⊢
  have hfl1 : (-2147483648 : ℤ) ≤ ⌊p.toRat⌋ := Int.le_floor.2 (by push_cast; exact hlo)
  have hfl2 : ⌊p.toRat⌋ ≤ (2147483647 : ℤ) := by
    have h1 := Int.floor_le p.toRat
    have : ((⌊p.toRat⌋ : ℤ) : ℚ) ≤ ((2147483647 : ℤ) : ℚ) := by push_cast; linarith
    exact_mod_cast this
  have hce1 : (-2147483648 : ℤ) ≤ ⌈p.toRat⌉ := by
    have h1 := Int.le_ceil p.toRat
    have : (((-2147483648 : ℤ)) : ℚ) ≤ ((⌈p.toRat⌉ : ℤ) : ℚ) := by push_cast; linarith
    exact_mod_cast this
  have hce2 : ⌈p.toRat⌉ ≤ (2147483647 : ℤ) := Int.ceil_le.2 (by push_cast; exact hhi)
  by_cases h0 : 0 ≤ p.toRat
  · rw [if_pos h0, ← hf h0]
    have e := hf h0
    rw [← hpe] at ht
    exact caml_sleep_in_range pf d log n ht (by unfold INT_MIN; omega) (by unfold INT_MAX; omega)
  · rw [if_neg h0, ← hc (le_of_lt (not_le.1 h0))]
    have e := hc (le_of_lt (not_le.1 h0))
    rw [← hpe] at ht
    exact caml_sleep_in_range pf d log n ht (by unfold INT_MIN; omega) (by unfold INT_MAX; omega)

/-- Upper bound of a value by an integer, read off the signed units. -/
theorem Double.toRat_le_of_sunits (x : Double) (m : ℤ) (h : x.sunits ≤ m * scale) :
    x.toRat ≤ (m : ℚ) := by
  rw [Double.toRat_eq_sunits, div_le_iff₀ scale_posQ]
  exact_mod_cast h

/-- Lower bound of a value by an integer, read off the signed units. -/
theorem Double.le_toRat_of_sunits (x : Double) (m : ℤ) (h : m * scale ≤ x.sunits) :
    (m : ℚ) ≤ x.toRat := by
  rw [Double.toRat_eq_sunits, le_div_iff₀ scale_posQ]
  exact_mod_cast h

set_option maxRecDepth 100000 in
set_option exponentiation.threshold 5000 in
/-- The product `1000000 * 2^-19` is the datum `1.9073486328125`. -/
theorem micros_sample :
    Double.mul (Double.ofInt 1000000) ⟨false, 1004, 0⟩ = ⟨false, 1023, 4086334964629504⟩ := by
  decide

set_option maxRecDepth 100000 in
set_option exponentiation.threshold 5000 in
/-- Witness of C2 at `f = 2^-19` seconds on the x86-64 platform: the product is
`1.9073486328125`, inside the `int` range, and the request is `1` microsecond
(rounding to nearest would give `2`). -/
theorem caml_sleep_truncates_witness :
    caml_sleep Platform.x86_64 (caml_copy_double ⟨false, 1004, 0⟩) [] =
      some (Val_unit, (usleep Platform.x86_64
        (if 0 ≤ (Double.mul (Double.ofInt 1000000) ⟨false, 1004, 0⟩).toRat
          then ⌊(Double.mul (Double.ofInt 1000000) ⟨false, 1004, 0⟩).toRat⌋
          else ⌈(Double.mul (Double.ofInt 1000000) ⟨false, 1004, 0⟩).toRat⌉) []).2) ∧
    caml_sleep Platform.x86_64 (caml_copy_double ⟨false, 1004, 0⟩) [] = some (Val_unit, [1]) :=
  ⟨caml_sleep_truncates Platform.x86_64 ⟨false, 1004, 0⟩ [] (by rw [micros_sample]; decide)
      (by rw [micros_sample]
          exact_mod_cast Double.le_toRat_of_sunits _ (-2147483648) (by decide))
      (by rw [micros_sample]
          exact_mod_cast Double.toRat_le_of_sunits _ 2147483647 (by decide)),
    by rw [caml_sleep_eq, micros_sample]; decide⟩


/-! ## Powers of two, and the gaps between neighbouring data -/

theorem scale_split (j k : ℕ) (h : j + k = 1074) : (scale : ℚ) = 2 ^ j * 2 ^ k := by
  unfold scale
  rw [← pow_add, h, Nat.cast_pow, Nat.cast_ofNat]

/-- A power of two below `2^1074` units is a negative power of two. -/
theorem pow_div_scale (j k : ℕ) (h : j + k = 1074) : (2 : ℚ) ^ j / (scale : ℚ) = 1 / 2 ^ k := by
  rw [scale_split j k h]
  have h1 : (0 : ℚ) < 2 ^ j := by positivity
  have h2 : (0 : ℚ) < 2 ^ k := by positivity
  field_simp

/-- A power of two above `2^1074` units is a power of two. -/
theorem pow_add_div_scale (k : ℕ) : (2 : ℚ) ^ (1074 + k) / (scale : ℚ) = 2 ^ k := by
  have : (scale : ℚ) = 2 ^ 1074 := by unfold scale; rw [Nat.cast_pow, Nat.cast_ofNat]
  rw [this, pow_add]
  have h1 : (0 : ℚ) < 2 ^ 1074 := by positivity
  field_simp

/-- No datum lies strictly between `(A - 1) * 2^e` and `A * 2^e` units when `A`
is a normal significand above `2^52`. -/
theorem Double.units_lt_gap (x : Double) (A e : ℕ) (hA : 4503599627370496 < A)
    (h : x.units < A * 2 ^ e) : x.units ≤ (A - 1) * 2 ^ e := by
  obtain ⟨M, t, hM, hu⟩ := units_form x
  rw [hu] at h ⊢
  by_cases hte : e ≤ t
  · have ht : t = (t - e) + e := by omega
    rw [ht, pow_add, ← Nat.mul_assoc] at h ⊢
    have h1 : M * 2 ^ (t - e) < A := Nat.lt_of_mul_lt_mul_right h
    exact Nat.mul_le_mul_right _ (by omega)
  · have he : e = (e - 1 - t) + t + 1 := by omega
    have h1 : 2 ^ e = 2 ^ t * (2 * 2 ^ (e - 1 - t)) := by
      conv_lhs => rw [he, pow_succ, pow_add]
      ring
    have h2 : 1 ≤ 2 ^ (e - 1 - t) := Nat.one_le_two_pow
    rw [h1]
    calc M * 2 ^ t ≤ 9007199254740992 * 2 ^ t := Nat.mul_le_mul_right _ (by omega)
      _ = 2 ^ t * (2 * 1) * 4503599627370496 := by ring
      _ ≤ 2 ^ t * (2 * 2 ^ (e - 1 - t)) * 4503599627370496 := by
          apply Nat.mul_le_mul_right
          apply Nat.mul_le_mul_left
          omega
      _ ≤ 2 ^ t * (2 * 2 ^ (e - 1 - t)) * (A - 1) := Nat.mul_le_mul_left _ (by omega)
      _ = (A - 1) * (2 ^ t * (2 * 2 ^ (e - 1 - t))) := by ring

/-- No datum lies strictly between `A * 2^e` and `(A + 1) * 2^e` units when `A`
is a normal significand. -/
theorem Double.units_gt_gap (x : Double) (A e : ℕ) (hA : 4503599627370496 ≤ A)
    (h : A * 2 ^ e < x.units) : (A + 1) * 2 ^ e ≤ x.units := by
  obtain ⟨M, t, hM, hu⟩ := units_form x
  rw [hu] at h ⊢
  by_cases hte : e ≤ t
  · have ht : t = (t - e) + e := by omega
    rw [ht, pow_add, ← Nat.mul_assoc] at h ⊢
    have h1 : A < M * 2 ^ (t - e) := Nat.lt_of_mul_lt_mul_right h
    exact Nat.mul_le_mul_right _ (by omega)
  · exfalso
    have he : e = (e - 1 - t) + t + 1 := by omega
    have h1 : 2 ^ e = 2 ^ t * (2 * 2 ^ (e - 1 - t)) := by
      conv_lhs => rw [he, pow_succ, pow_add]
      ring
    have h2 : 1 ≤ 2 ^ (e - 1 - t) := Nat.one_le_two_pow
    rw [h1] at h
    have : M * 2 ^ t ≤ A * (2 ^ t * (2 * 2 ^ (e - 1 - t))) := by
      calc M * 2 ^ t ≤ 9007199254740992 * 2 ^ t := Nat.mul_le_mul_right _ (by omega)
        _ = 2 ^ t * (2 * 1) * 4503599627370496 := by ring
        _ ≤ 2 ^ t * (2 * 2 ^ (e - 1 - t)) * 4503599627370496 := by
            apply Nat.mul_le_mul_right
            apply Nat.mul_le_mul_left
            omega
        _ ≤ 2 ^ t * (2 * 2 ^ (e - 1 - t)) * A := Nat.mul_le_mul_left _ hA
        _ = A * (2 ^ t * (2 * 2 ^ (e - 1 - t))) := by ring
    omega

/-- A datum whose magnitude is below some `M * 2^e` units, with `M ≤ 2^53` and
`e ≤ 2045`, is finite. -/
theorem Double.isFinite_of_units_lt (x : Double) (M e : ℕ) (hM : M ≤ 9007199254740992)
    (he : e ≤ 2045) (h : x.units < M * 2 ^ e) : x.isFinite := by
  unfold Double.isFinite
  by_contra hc
  have hx : x.exp.val = 2047 := by have := x.exp.isLt; omega
  unfold Double.units at h
  rw [if_neg (by omega), hx, show 2047 - 1 = 2045 + 1 from rfl, pow_succ] at h
  have hmono : ∀ k : ℕ, e ≤ k → 2 ^ e ≤ 2 ^ k := fun k hk =>
    Nat.pow_le_pow_right (by norm_num) hk
  have h1 := hmono 2045 he
  generalize 2 ^ 2045 = X at h h1
  generalize 2 ^ e = Y at h h1
  have h2 : M * Y ≤ 9007199254740992 * X := Nat.mul_le_mul hM h1
  have h3 : 4503599627370496 * (X * 2) ≤ (4503599627370496 + x.frac.val) * (X * 2) :=
    Nat.mul_le_mul_right _ (Nat.le_add_right _ _)
  omega

/-- A natural number of units that is a multiple of `2^j`, as a rational. -/
theorem nat_pow_div_scale (c j k : ℕ) (h : j + k = 1074) :
    ((c * 2 ^ j : ℕ) : ℚ) / (scale : ℚ) = (c : ℚ) / 2 ^ k := by
  rw [Nat.cast_mul, Nat.cast_pow, mul_div_assoc]
  have : ((2 : ℕ) : ℚ) = 2 := by norm_num
  rw [this, pow_div_scale j k h]
  ring


/-! ## Durations around one microsecond (C7, C9) -/

set_option maxRecDepth 100000 in
set_option exponentiation.threshold 5000 in
theorem micro_units : Double.micro.units = 4722366482869645 * 2 ^ 1002 := by
  unfold Double.micro
  rw [round_micro_bits]
  decide

theorem micro_sign : Double.micro.sign = false := by
  unfold Double.micro
  rw [round_micro_bits]

/-- The literal `0.000001` is `4722366482869645 / 2^72`, just below `10^-6`. -/
theorem micro_toRat : Double.micro.toRat = 4722366482869645 / 2 ^ 72 := by
  rw [toRat_eq, micro_units, micro_sign, nat_pow_div_scale _ 1002 72 rfl]
  unfold sgn
  norm_num

/-- The exact product `1000000 * f` in terms of the units of `f`. -/
theorem micros_exact (d : Double) :
    1000000 * d.toRat = sgn d.sign * (1000000 * (d.units : ℚ) / (scale : ℚ)) := by
  rw [toRat_eq]; ring

set_option maxRecDepth 100000 in
set_option exponentiation.threshold 5000 in
theorem sub_micro_bound : 1000000 * (4722366482869644 * 2 ^ 1002) ≤ scale := by decide

/-- Below the literal `0.000001` the microsecond product is finite and below one. -/
theorem micros_lt_one (d : Double) (h0 : 0 ≤ d.toRat) (h1 : d.toRat < Double.micro.toRat) :
    (Double.mul (Double.ofInt 1000000) d).isFinite ∧
      0 ≤ (Double.mul (Double.ofInt 1000000) d).toRat ∧
      (Double.mul (Double.ofInt 1000000) d).toRat < 1 := by
  have hs := scale_posQ
  -- the units of `d` are below those of the literal, hence at most its predecessor's
  have hu : d.units < Double.micro.units := by
    rw [toRat_eq, toRat_eq, micro_sign] at h1
    rw [toRat_eq] at h0
    unfold sgn at h0 h1
    cases hsg : d.sign
    · rw [hsg] at h1
      simp only [Bool.false_eq_true, if_false, one_mul] at h1
      rw [div_lt_div_iff_of_pos_right hs] at h1
      exact_mod_cast h1
    · rw [hsg] at h0
      simp only [if_true, neg_mul, one_mul, Left.nonneg_neg_iff] at h0
      have h2 : (0 : ℚ) ≤ (d.units : ℚ) / (scale : ℚ) :=
        div_nonneg (Nat.cast_nonneg _) (Nat.cast_nonneg _)
      have h3 : (d.units : ℚ) / (scale : ℚ) = 0 := le_antisymm h0 h2
      have h4 : (d.units : ℚ) = 0 := by
        rcases div_eq_zero_iff.1 h3 with h | h
        · exact h
        · exact absurd h (ne_of_gt hs)
      have h5 : d.units = 0 := by exact_mod_cast h4
      rw [h5, micro_units]
      positivity
  rw [micro_units] at hu
  have hgap := Double.units_lt_gap d 4722366482869645 1002 (by norm_num) hu
  rw [show 4722366482869645 - 1 = 4722366482869644 from rfl] at hgap
  have hdfin : d.isFinite := by
    exact Double.isFinite_of_units_lt d 4722366482869645 1002 (by norm_num) (by norm_num) hu
  have hb := sub_micro_bound
  have hfin : (Double.mul (Double.ofInt 1000000) d).isFinite := by
    rw [mul_eq_round _ _ million_finite hdfin]
    apply round_finite _ _ _ (Nat.mul_pos scale_pos scale_pos) 0 (by norm_num)
    rw [million_units, pow_zero, one_mul]
    generalize 2 ^ 1002 = X at *
    have e1 : 1000000 * scale * d.units = scale * (1000000 * d.units) := by ring
    rw [e1]
    exact Nat.mul_le_mul_left _ (by omega)
  have near := micros_near d hfin
  have hq0 : (0 : ℚ) ≤ 1000000 * d.toRat := mul_nonneg (by norm_num) h0
  have hqle : 1000000 * d.toRat ≤ 1000000 * 4722366482869644 / 2 ^ 72 := by
    have h2 : d.toRat ≤ (d.units : ℚ) / (scale : ℚ) := by
      rw [toRat_eq]; unfold sgn
      have h3 : (0 : ℚ) ≤ (d.units : ℚ) / (scale : ℚ) :=
        div_nonneg (Nat.cast_nonneg _) (Nat.cast_nonneg _)
      cases d.sign
      · simp
      · simp; linarith
    have h4 : ((d.units : ℕ) : ℚ) ≤ ((4722366482869644 * 2 ^ 1002 : ℕ) : ℚ) := by
      exact_mod_cast hgap
    have h5 : ((4722366482869644 * 2 ^ 1002 : ℕ) : ℚ) / (scale : ℚ) = 4722366482869644 / 2 ^ 72 := by
      rw [nat_pow_div_scale _ 1002 72 rfl]
      norm_num
    have h6 : (d.units : ℚ) / (scale : ℚ) ≤ 4722366482869644 / 2 ^ 72 := by
      rw [← h5]; exact div_le_div_of_nonneg_right h4 (le_of_lt hs)
    linarith
  refine ⟨hfin, near.nonneg hq0, ?_⟩
  have herr := near.error 1021 (by
    rw [mul_div_assoc, pow_div_scale 1021 53 rfl, abs_of_nonneg hq0]
    norm_num at hqle ⊢
    linarith)
  rw [pow_div_scale 1021 53 rfl] at herr
  have := neg_abs_le (1000000 * d.toRat - (Double.mul (Double.ofInt 1000000) d).toRat)
  norm_num at hqle herr ⊢
  linarith

/-- Claim C7. `sleep(0)` requests no pause: for `f = 0`, and for every `f` with
`0 ≤ f < 0.000001` (the `double` literal), `caml_sleep` calls `usleep(0)`, so the
pause requested is exactly `0` microseconds, and returns unit. -/
theorem caml_sleep_sub_microsecond (pf : Platform) (d : Double) (log : List Nat)
    (h0 : 0 ≤ d.toRat) (h1 : d.toRat < Double.micro.toRat) :
    caml_sleep pf (caml_copy_double d) log = some (Val_unit, (usleep pf 0 log).2) ∧
      (usleep pf 0 log).2 = log ++ [0] := by
  obtain ⟨hfin, hp0, hp1⟩ := micros_lt_one d h0 h1
  obtain ⟨n, ht, hf, _⟩ := Double.truncate_spec _ hfin
  have hn : n = 0 := by
    rw [hf hp0]
    exact Int.floor_eq_zero_iff.2 ⟨hp0, hp1⟩
  subst hn
  exact ⟨caml_sleep_in_range pf d log 0 ht (by decide) (by decide), rfl⟩

set_option maxRecDepth 100000 in
set_option exponentiation.threshold 5000 in
/-- Witness of C7 at `f = 0` and at the largest `double` below the literal
`0.000001`. -/
theorem caml_sleep_sub_microsecond_witness :
    (caml_sleep Platform.x86_64 (caml_copy_double (Double.zero false)) [] =
        some (Val_unit, (usleep Platform.x86_64 0 []).2) ∧
      (usleep Platform.x86_64 0 []).2 = [] ++ [0]) ∧
    (caml_sleep Platform.x86_64 (caml_copy_double ⟨false, 1003, 218766855499148⟩) [] =
        some (Val_unit, (usleep Platform.x86_64 0 []).2) ∧
      (usleep Platform.x86_64 0 []).2 = [] ++ [0]) :=
  ⟨caml_sleep_sub_microsecond Platform.x86_64 (Double.zero false) []
      (by rw [toRat_zero])
      (by rw [toRat_zero, micro_toRat]; norm_num),
    caml_sleep_sub_microsecond Platform.x86_64 ⟨false, 1003, 218766855499148⟩ []
      (Double.le_toRat_of_sunits _ 0 (by decide))
      (by
        rw [micro_toRat, toRat_eq,
          show (⟨false, 1003, 218766855499148⟩ : Double).units = 4722366482869644 * 2 ^ 1002
            from by decide,
          nat_pow_div_scale _ 1002 72 rfl]
        unfold sgn
        norm_num)⟩


set_option maxRecDepth 100000 in
set_option exponentiation.threshold 5000 in
/-- At `f = -0.000001` the product rounds to `-1.0`. -/
theorem micros_neg_micro :
    Double.round true (1000000 * scale * (4722366482869645 * 2 ^ 1002)) (scale * scale) =
      ⟨true, 1023, 0⟩ := by
  decide

set_option maxRecDepth 100000 in
set_option exponentiation.threshold 5000 in
theorem neg_one_units : (⟨true, 1023, 0⟩ : Double).units = 1 * 2 ^ 1074 := by decide

set_option maxRecDepth 100000 in
set_option exponentiation.threshold 5000 in
theorem succ_micro_bound : scale ≤ 1000000 * (4722366482869646 * 2 ^ 1002) := by decide

/-- From the literal `-0.000001` downwards the microsecond product is at most `-1`. -/
theorem micros_le_neg_one (d : Double) (hd : d.toRat ≤ -Double.micro.toRat)
    (hfin : (Double.mul (Double.ofInt 1000000) d).isFinite) :
    (Double.mul (Double.ofInt 1000000) d).toRat ≤ -1 := by
  have hs := scale_posQ
  have hdfin := (Double.isFinite_of_mul hfin).2
  have hu0 : (0 : ℚ) ≤ (d.units : ℚ) / (scale : ℚ) :=
    div_nonneg (Nat.cast_nonneg _) (Nat.cast_nonneg _)
  have hm0 : (0 : ℚ) < (Double.micro.units : ℚ) / (scale : ℚ) := by
    apply div_pos _ hs
    rw [micro_units]
    have hpos : ∀ k : ℕ, 0 < 4722366482869645 * 2 ^ k := fun k =>
      Nat.mul_pos (by norm_num) (Nat.two_pow_pos k)
    have := hpos 1002
    exact_mod_cast this
  -- `d` is negative with at least the units of the literal
  have hsu : d.sign = true ∧ Double.micro.units ≤ d.units := by
    rw [toRat_eq, toRat_eq, micro_sign] at hd
    unfold sgn at hd
    cases hsg : d.sign
    · rw [hsg] at hd
      simp only [Bool.false_eq_true, if_false, one_mul] at hd
      linarith
    · rw [hsg] at hd
      simp only [if_true, neg_mul, one_mul, Bool.false_eq_true, if_false, neg_le_neg_iff] at hd
      rw [div_le_div_iff_of_pos_right hs] at hd
      exact ⟨rfl, by exact_mod_cast hd⟩
  obtain ⟨hsg, hu⟩ := hsu
  rw [micro_units] at hu
  rcases Nat.eq_or_lt_of_le hu with heq | hlt
  · -- exactly `-0.000001`: the product rounds to `-1.0`
    rw [mul_eq_round _ _ million_finite hdfin, million_units, million_sign, hsg, ← heq]
    rw [show xor false true = true from rfl, micros_neg_micro, toRat_eq, neg_one_units,
      nat_pow_div_scale 1 1074 0 rfl]
    unfold sgn
    norm_num
  · have hgap := Double.units_gt_gap d 4722366482869645 1002 (by norm_num) hlt
    rw [show 4722366482869645 + 1 = 4722366482869646 from rfl] at hgap
    have near := micros_near d hfin
    have hb := succ_micro_bound
    have hq : 1000000 * d.toRat ≤ -1 := by
      rw [micros_exact, hsg]
      unfold sgn
      simp only [if_true, neg_mul, one_mul, neg_le_neg_iff]
      rw [le_div_iff₀ hs, one_mul]
      have : scale ≤ 1000000 * d.units := by
        generalize 2 ^ 1002 = X at *
        omega
      exact_mod_cast this
    have := near.le_cand (-1) 1074 (by norm_num) (by
      rw [show (1074 : ℕ) = 1074 + 0 from rfl, mul_div_assoc, pow_add_div_scale]
      norm_num
      exact hq)
    rw [show (1074 : ℕ) = 1074 + 0 from rfl, mul_div_assoc, pow_add_div_scale] at this
    norm_num at this
    exact this

/-- Claim C9. No guard against negative durations: for every `f ≤ -0.000001` (the
`double` literal, which is above `-10^-6`, so every `f ≤ -10^-6` is covered) whose
microsecond product `1000000*f` is finite and not below `INT_MIN`, the truncated
count `n` is negative, `caml_sleep` hands it unchanged to `usleep` and returns
unit, and the pause the primitive sees, `n mod 2^32`, is `2^32 + n`. -/
theorem caml_sleep_negative (pf : Platform) (d : Double) (log : List Nat)
    (hd : d.toRat ≤ -Double.micro.toRat)
    (hfin : (Double.mul (Double.ofInt 1000000) d).isFinite)
    (hlo : (-2147483648 : ℚ) ≤ (Double.mul (Double.ofInt 1000000) d).toRat) :
    ∃ n : ℤ, n = ⌈(Double.mul (Double.ofInt 1000000) d).toRat⌉ ∧ n < 0 ∧
      caml_sleep pf (caml_copy_double d) log = some (Val_unit, (usleep pf n log).2) ∧
      (usleep pf n log).2 = log ++ [(4294967296 + n).toNat] := by
  have hp := micros_le_neg_one d hd hfin
  obtain ⟨n, ht, _, hc⟩ := Double.truncate_spec _ hfin
  have hn := hc (by linarith)
  have hn1 : n ≤ -1 := by
    rw [hn]
    exact Int.ceil_le.2 (by push_cast; exact hp)
  have hn2 : (-2147483648 : ℤ) ≤ n := by
    rw [hn]
    have h1 := Int.le_ceil (Double.mul (Double.ofInt 1000000) d).toRat
    have : (((-2147483648 : ℤ)) : ℚ) ≤
        ((⌈(Double.mul (Double.ofInt 1000000) d).toRat⌉ : ℤ) : ℚ) := by push_cast; linarith
    exact_mod_cast this
  refine ⟨n, hn, by omega, ?_, ?_⟩
  · exact caml_sleep_in_range pf d log n ht (by unfold INT_MIN; omega) (by unfold INT_MAX; omega)
  · have e : (n % 4294967296).toNat = (4294967296 + n).toNat := by omega
    rw [usleep_log, e]

set_option maxRecDepth 100000 in
set_option exponentiation.threshold 5000 in
/-- The product `1000000 * -1.0` is `-1000000.0`. -/
theorem micros_neg_one :
    Double.mul (Double.ofInt 1000000) ⟨true, 1023, 0⟩ = ⟨true, 1042, 4086334964629504⟩ := by
  decide

set_option maxRecDepth 100000 in
set_option exponentiation.threshold 5000 in
/-- Witness of C9 at `f = -1.0`: the request is `4293967296` microseconds. -/
theorem caml_sleep_negative_witness :
    (∃ n : ℤ, n = ⌈(Double.mul (Double.ofInt 1000000) ⟨true, 1023, 0⟩).toRat⌉ ∧ n < 0 ∧
      caml_sleep Platform.x86_64 (caml_copy_double ⟨true, 1023, 0⟩) [] =
        some (Val_unit, (usleep Platform.x86_64 n []).2) ∧
      (usleep Platform.x86_64 n []).2 = [] ++ [(4294967296 + n).toNat]) ∧
    caml_sleep Platform.x86_64 (caml_copy_double ⟨true, 1023, 0⟩) [] =
      some (Val_unit, [4293967296]) :=
  ⟨caml_sleep_negative Platform.x86_64 ⟨true, 1023, 0⟩ []
      (by
        rw [micro_toRat, toRat_eq, neg_one_units, nat_pow_div_scale 1 1074 0 rfl]
        unfold sgn
        norm_num)
      (by rw [micros_neg_one]; decide)
      (by rw [micros_neg_one]
          exact_mod_cast Double.le_toRat_of_sunits _ (-2147483648) (by decide)),
    by rw [caml_sleep_eq, micros_neg_one]; decide⟩


/-! ## The clock status (C10) and durations beyond the `int` range (C3, C4) -/

theorem cand_int (c : ℤ) (k : ℕ) : (c : ℚ) * 2 ^ (1074 + k) / (scale : ℚ) = c * 2 ^ k := by
  rw [mul_div_assoc, pow_add_div_scale]

/-- Integers of magnitude at most `2^53` convert exactly. -/
theorem Double.ofInt_exact (i : ℤ) (h : |i| ≤ 9007199254740992) :
    (Double.ofInt i).isFinite ∧ (Double.ofInt i).toRat = i := by
  have hfin := ofInt_finite i 53 (by norm_num) (by norm_num; exact h)
  have near := ofInt_near i hfin
  have e := cand_int i 0
  rw [pow_zero, mul_one] at e
  have h1 := near.le_cand i (1074 + 0) h (by rw [e])
  have h2 := near.cand_le i (1074 + 0) h (by rw [e])
  rw [e] at h1 h2
  exact ⟨hfin, le_antisymm h1 h2⟩

theorem Double.isFinite_of_truncate {x : Double} {n : ℤ} (h : x.truncate = some n) :
    x.isFinite := by
  unfold Double.truncate at h
  by_contra hc
  rw [if_neg hc] at h
  exact absurd h (by simp)

/-- Claim C10. The status of the clock query is ignored: whether it succeeds or
fails, the result is a boxed timestamp (never an error) computed from whatever
the buffer holds after the call, by the same expression; after a failure that is
the uninitialised content, exactly as if it had been read from the clock. -/
theorem caml_gettimeofday_ignores_status (os : ClockOutcome) (uninit : timeval) :
    caml_gettimeofday os uninit =
        caml_copy_double (Double.add (Double.ofInt (gettimeofday os uninit).2.tv_sec)
          (Double.div (Double.ofInt (gettimeofday os uninit).2.tv_usec) (Double.ofInt 1000000))) ∧
      (∃ t : Double, Double_val (caml_gettimeofday os uninit) = some t) ∧
      (gettimeofday ClockOutcome.failed uninit).1 = -1 ∧
      caml_gettimeofday ClockOutcome.failed uninit =
        caml_gettimeofday (ClockOutcome.ok uninit) uninit :=
  ⟨rfl, ⟨_, rfl⟩, rfl, rfl⟩

/-- When the truncated product is beyond `INT_MAX`, the call still returns unit and
the pause requested is a 32-bit quantity. -/
theorem caml_sleep_oor_lt (pf : Platform) (d : Double) (log : List Nat) (t : ℤ)
    (ht : (Double.mul (Double.ofInt 1000000) d).truncate = some t) (hbig : INT_MAX < t) :
    ∃ u : ℕ, caml_sleep pf (caml_copy_double d) log = some (Val_unit, log ++ [u]) ∧
      u < 4294967296 := by
  refine ⟨(((pf.cvt_oor (Double.mul (Double.ofInt 1000000) d)).bmod 4294967296) %
    4294967296).toNat, ?_, usleep_lt _⟩
  rw [caml_sleep_oor pf d log (fun n hn => by rw [ht] at hn; rw [← Option.some.inj hn]; exact hbig),
    usleep_log]

/-- Claim C3, as amended. For every duration whose microsecond product is at
least `2^31 = INT_MAX + 1`, so that its truncation toward zero is beyond
`INT_MAX` (`+infinity` included), `caml_sleep` raises no error: it returns unit
after handing `usleep` the `int` the platform's out-of-range conversion yields, so
the pause requested is below `2^32` microseconds whatever the duration.  (A
product strictly between `INT_MAX` and `INT_MAX + 1` still truncates to
`INT_MAX` and is in range.) -/
theorem caml_sleep_out_of_range (pf : Platform) (d : Double) (log : List Nat)
    (hbig : (2147483648 : ℚ) ≤ (Double.mul (Double.ofInt 1000000) d).toRat) :
    caml_sleep pf (caml_copy_double d) log = some (Val_unit,
        (usleep pf ((pf.cvt_oor (Double.mul (Double.ofInt 1000000) d)).bmod 4294967296) log).2) ∧
      ∃ u : ℕ, (usleep pf
          ((pf.cvt_oor (Double.mul (Double.ofInt 1000000) d)).bmod 4294967296) log).2 =
        log ++ [u] ∧ u < 4294967296 := by
  refine ⟨caml_sleep_oor pf d log ?_, _, usleep_log _ _ _, usleep_lt _⟩
  intro n hn
  obtain ⟨m, hm, hf, _⟩ := Double.truncate_spec _ (Double.isFinite_of_truncate hn)
  rw [hn] at hm
  have hnm : n = m := Option.some.inj hm
  have h0 : (0 : ℚ) ≤ (Double.mul (Double.ofInt 1000000) d).toRat := by linarith
  have h1 : (2147483648 : ℤ) ≤ ⌊(Double.mul (Double.ofInt 1000000) d).toRat⌋ :=
    Int.le_floor.2 (by push_cast; exact hbig)
  rw [hnm, hf h0]
  unfold INT_MAX
  omega


set_option maxRecDepth 100000 in
set_option exponentiation.threshold 5000 in
/-- The product `1000000 * 1000000.0` is `10^12`. -/
theorem micros_million :
    Double.mul (Double.ofInt 1000000) (Double.ofInt 1000000) =
      ⟨false, 1062, 3688400372629504⟩ := by
  decide

set_option maxRecDepth 100000 in
set_option exponentiation.threshold 5000 in
/-- Claim C3, counterexample. At a duration of `10^6` seconds (`10^12` microseconds)
`caml_sleep` raises nothing and returns unit, on every platform, after requesting
a pause of less than `4295` seconds; on x86-64 the request is `2147483648`
microseconds. -/
theorem caml_sleep_large_counterexample :
    (Double.ofInt 1000000).toRat = 1000000 ∧
    (∀ (pf : Platform) (log : List Nat), ∃ u : ℕ,
      caml_sleep pf (caml_copy_double (Double.ofInt 1000000)) log =
        some (Val_unit, log ++ [u]) ∧ (u : ℚ) / 1000000 < 4295) ∧
    caml_sleep Platform.x86_64 (caml_copy_double (Double.ofInt 1000000)) [] =
      some (Val_unit, [2147483648]) := by
  refine ⟨million_toRat, ?_, by rw [caml_sleep_eq, micros_million]; decide⟩
  intro pf log
  obtain ⟨u, h2, h3⟩ := caml_sleep_oor_lt pf (Double.ofInt 1000000) log 1000000000000
    (by rw [micros_million]; decide) (by decide)
  refine ⟨u, h2, ?_⟩
  have : (u : ℚ) < 4294967296 := by exact_mod_cast h3
  rw [div_lt_iff₀ (by norm_num)]
  linarith

set_option maxRecDepth 100000 in
set_option exponentiation.threshold 5000 in
/-- Witness of the amended C3 at `10^6` seconds on x86-64. -/
theorem caml_sleep_out_of_range_witness :
    (2147483648 : ℚ) ≤ (Double.mul (Double.ofInt 1000000) (Double.ofInt 1000000)).toRat ∧
    (caml_sleep Platform.x86_64 (caml_copy_double (Double.ofInt 1000000)) [] = some (Val_unit,
        (usleep Platform.x86_64 ((Platform.x86_64.cvt_oor
          (Double.mul (Double.ofInt 1000000) (Double.ofInt 1000000))).bmod 4294967296) []).2) ∧
      ∃ u : ℕ, (usleep Platform.x86_64 ((Platform.x86_64.cvt_oor
          (Double.mul (Double.ofInt 1000000) (Double.ofInt 1000000))).bmod 4294967296) []).2 =
        [] ++ [u] ∧ u < 4294967296) :=
  have h : (2147483648 : ℚ) ≤
      (Double.mul (Double.ofInt 1000000) (Double.ofInt 1000000)).toRat := by
    rw [micros_million]
    exact_mod_cast Double.le_toRat_of_sunits _ 2147483648 (by decide)
  ⟨h, caml_sleep_out_of_range Platform.x86_64 (Double.ofInt 1000000) [] h⟩

set_option maxRecDepth 100000 in
set_option exponentiation.threshold 5000 in
/-- The datum `5000.0` and its microsecond product `5 * 10^9`. -/
theorem micros_five_thousand :
    Double.ofInt 5000 = ⟨false, 1035, 993958511509504⟩ ∧
    Double.mul (Double.ofInt 1000000) (Double.ofInt 5000) = ⟨false, 1055, 739280372629504⟩ := by
  decide

set_option maxRecDepth 100000 in
set_option exponentiation.threshold 5000 in
/-- Claim C4, counterexample. At `d = 5000` seconds `caml_sleep` returns, on every
platform, after requesting a pause `u` with `u / 1000000 < d - 0.01`. -/
theorem caml_sleep_lower_bound_counterexample :
    (Double.ofInt 5000).toRat = 5000 ∧
    ∀ (pf : Platform) (log : List Nat), ∃ u : ℕ,
      caml_sleep pf (caml_copy_double (Double.ofInt 5000)) log = some (Val_unit, log ++ [u]) ∧
      (u : ℚ) / 1000000 < (Double.ofInt 5000).toRat - 1 / 100 := by
  have h5 : (Double.ofInt 5000).toRat = 5000 := by
    have := (Double.ofInt_exact 5000 (by norm_num)).2
    exact_mod_cast this
  refine ⟨h5, ?_⟩
  intro pf log
  obtain ⟨u, h2, h3⟩ := caml_sleep_oor_lt pf (Double.ofInt 5000) log 5000000000
    (by rw [micros_five_thousand.2]; decide) (by decide)
  refine ⟨u, h2, ?_⟩
  have : (u : ℚ) < 4294967296 := by exact_mod_cast h3
  rw [h5, div_lt_iff₀ (by norm_num)]
  linarith


/-! ## In range, the pause requested is long enough -/

/-- In the `int` range and for a non-negative duration, the pause requested is
the duration in microseconds, short by less than two microseconds. -/
theorem caml_sleep_at_least (pf : Platform) (d : Double) (log : List Nat)
    (h0 : 0 ≤ d.toRat)
    (hfin : (Double.mul (Double.ofInt 1000000) d).isFinite)
    (hhi : (Double.mul (Double.ofInt 1000000) d).toRat ≤ 2147483647) :
    ∃ u : ℕ, caml_sleep pf (caml_copy_double d) log = some (Val_unit, log ++ [u]) ∧
      1000000 * d.toRat - 2 < (u : ℚ) ∧ (u : ℚ) ≤ 1000000 * d.toRat + 1 := by
  have near := micros_near d hfin
  have hq0 : (0 : ℚ) ≤ 1000000 * d.toRat := mul_nonneg (by norm_num) h0
  have hp0 := near.nonneg hq0
  -- the exact product is below `2^32`
  have hq32 : 1000000 * d.toRat ≤ 4294967296 := by
    by_contra hc
    push_neg at hc
    have e := cand_int 1 32
    have := near.cand_le 1 (1074 + 32) (by norm_num) (by rw [e]; norm_num; linarith)
    rw [e] at this
    norm_num at this
    linarith
  have herr := near.error 1053 (by
    rw [mul_div_assoc, pow_div_scale 1053 21 rfl, abs_of_nonneg hq0]
    norm_num
    exact hq32)
  rw [pow_div_scale 1053 21 rfl] at herr
  obtain ⟨herr1, herr2⟩ := abs_le.1 herr
  obtain ⟨n, ht, hf, _⟩ := Double.truncate_spec _ hfin
  have hn := hf hp0
  have hfl1 := Int.floor_le (Double.mul (Double.ofInt 1000000) d).toRat
  have hfl2 := Int.lt_floor_add_one (Double.mul (Double.ofInt 1000000) d).toRat
  rw [← hn] at hfl1 hfl2
  have hn0 : 0 ≤ n := by rw [hn]; exact Int.floor_nonneg.2 hp0
  have hn1 : n ≤ 2147483647 := by
    have : (n : ℚ) ≤ ((2147483647 : ℤ) : ℚ) := by push_cast; linarith
    exact_mod_cast this
  have hu : (n % 4294967296).toNat = n.toNat := by omega
  have hcast : ((n.toNat : ℕ) : ℚ) = (n : ℚ) := by
    have : ((n.toNat : ℕ) : ℤ) = n := Int.toNat_of_nonneg hn0
    exact_mod_cast this
  refine ⟨n.toNat, ?_, ?_, ?_⟩
  · rw [caml_sleep_in_range pf d log n ht (by unfold INT_MIN; omega) (by unfold INT_MAX; omega),
      usleep_log, hu]
  · rw [hcast]
    norm_num at herr1 herr2
    linarith
  · rw [hcast]
    norm_num at herr1 herr2
    linarith


/-! ## Timestamps: the seconds, the fraction and their sum (C5, C6, C4) -/

theorem Double.abs_toRat (x : Double) : |x.toRat| = (x.units : ℚ) / (scale : ℚ) := by
  rw [toRat_eq, abs_mul, abs_sgn, one_mul,
    abs_of_nonneg (div_nonneg (Nat.cast_nonneg _) (Nat.cast_nonneg _))]

/-- A bound on the value bounds the units. -/
theorem Double.units_le_of_abs_le (x : Double) (K : ℕ) (h : |x.toRat| ≤ (K : ℚ)) :
    x.units ≤ K * scale := by
  rw [Double.abs_toRat, div_le_iff₀ scale_posQ] at h
  exact_mod_cast h

theorem million_not_isZero : ¬ (Double.ofInt 1000000).isZero := by
  rw [ofInt_million_bits]; decide

/-- The fractional part `(double)tv_usec / 1000000.` for `0 ≤ tv_usec < 10^6`: finite,
a nearest value to `tv_usec / 10^6`, within `2^-54` of it, and in `[0, 1)`. -/
theorem usec_part (u : ℤ) (hu0 : 0 ≤ u) (hu1 : u < 1000000) :
    (Double.div (Double.ofInt u) (Double.ofInt 1000000)).isFinite ∧
    Near ((u : ℚ) / 1000000) (Double.div (Double.ofInt u) (Double.ofInt 1000000)) ∧
    |(u : ℚ) / 1000000 - (Double.div (Double.ofInt u) (Double.ofInt 1000000)).toRat| ≤ 1 / 2 ^ 54 ∧
    0 ≤ (Double.div (Double.ofInt u) (Double.ofInt 1000000)).toRat ∧
    (Double.div (Double.ofInt u) (Double.ofInt 1000000)).toRat < 1 := by
  obtain ⟨hUfin, hU⟩ := Double.ofInt_exact u (abs_le.2 ⟨by omega, by omega⟩)
  have huQ0 : (0 : ℚ) ≤ u := by exact_mod_cast hu0
  have huQ1 : (u : ℚ) ≤ 999999 := by
    have : u ≤ 999999 := by omega
    exact_mod_cast this
  have hUu : (Double.ofInt u).units ≤ 1000000 * scale := by
    apply Double.units_le_of_abs_le
    rw [hU, abs_of_nonneg huQ0]
    push_cast
    linarith
  have hfin : (Double.div (Double.ofInt u) (Double.ofInt 1000000)).isFinite := by
    rw [div_eq_round _ _ hUfin million_finite million_not_isZero]
    apply round_finite _ _ _ (units_pos_of_not_isZero million_not_isZero) 0 (by norm_num)
    rw [million_units, pow_zero, one_mul]
    exact hUu
  have near := div_near _ _ hUfin million_finite million_not_isZero hfin
  rw [hU, million_toRat] at near
  have hq0 : (0 : ℚ) ≤ (u : ℚ) / 1000000 := div_nonneg huQ0 (by norm_num)
  have hq1 : (u : ℚ) / 1000000 ≤ 999999 / 1000000 :=
    div_le_div_of_nonneg_right huQ1 (by norm_num)
  have herr := near.error 1021 (by
    rw [mul_div_assoc, pow_div_scale 1021 53 rfl, abs_of_nonneg hq0]
    norm_num
    linarith)
  rw [pow_div_scale 1021 53 rfl] at herr
  have herr' : |(u : ℚ) / 1000000 - (Double.div (Double.ofInt u) (Double.ofInt 1000000)).toRat| ≤
      1 / 2 ^ 54 := by
    refine le_trans herr (le_of_eq ?_)
    norm_num
  refine ⟨hfin, near, herr', near.nonneg hq0, ?_⟩
  obtain ⟨h1, h2⟩ := abs_le.1 herr'
  norm_num at h1 h2 hq1 ⊢
  linarith

/-- Rounding an exact multiple of the divisor. -/
theorem rne_mul (k d : ℕ) (hd : 0 < d) : rne (k * d) d = k := by
  unfold rne
  simp only [Nat.mul_mod_left, Nat.mul_zero, hd, if_true]
  exact Nat.mul_div_cancel _ hd

/-- A finite converted integer is a whole number of ones. -/
theorem Double.ofInt_units (i : ℤ) (hfin : (Double.ofInt i).isFinite) :
    ∃ K : ℕ, (Double.ofInt i).units = K * scale := by
  unfold Double.ofInt at hfin ⊢
  have hb := (round_finite_iff _ _ _ (by norm_num)).1 hfin
  obtain ⟨_, _, hu⟩ := round_units (decide (i < 0)) i.natAbs 1 (by norm_num) hb
  rw [hu]
  generalize i.natAbs = n
  unfold rsig
  generalize rshift n 1 = s
  by_cases hs : s ≤ 1074
  · refine ⟨n, ?_⟩
    have e : scale = 2 ^ (1074 - s) * 2 ^ s := by
      unfold scale
      have : 1074 = (1074 - s) + s := by omega
      conv_lhs => rw [this, pow_add]
    have e2 : n * scale = (n * 2 ^ (1074 - s)) * (1 * 2 ^ s) := by
      rw [e]; ring
    rw [e2, rne_mul _ _ (Nat.mul_pos Nat.one_pos (Nat.two_pow_pos s))]
    ring
  · refine ⟨rne (n * scale) (1 * 2 ^ s) * 2 ^ (s - 1074), ?_⟩
    have e : 2 ^ s = 2 ^ (s - 1074) * scale := by
      unfold scale
      have : s = (s - 1074) + 1074 := by omega
      conv_lhs => rw [this, pow_add]
    rw [e]
    ring

/-- The value of a finite converted integer is an integer. -/
theorem Double.ofInt_toRat_int (i : ℤ) (hfin : (Double.ofInt i).isFinite) :
    ∃ k : ℤ, (Double.ofInt i).toRat = k := by
  obtain ⟨K, hK⟩ := Double.ofInt_units i hfin
  have hs := scale_posQ
  rw [toRat_eq, hK]
  unfold sgn
  cases (Double.ofInt i).sign
  · refine ⟨K, ?_⟩
    push_cast
    field_simp
  · refine ⟨-K, ?_⟩
    push_cast
    field_simp


theorem Double.sunits_natAbs (x : Double) : x.sunits.natAbs = x.units := by
  unfold Double.sunits
  cases x.sign <;> simp

theorem Double.zero_isFinite (neg : Bool) : (Double.zero neg).isFinite := by
  have : ((0 : Fin 2048) : ℕ) < 2047 := by decide
  exact this

/-- A sum of two finite operands of magnitude at most `2^k`, `k ≤ 1021`, is finite. -/
theorem Double.add_finite (a b : Double) (ha : a.isFinite) (hb : b.isFinite) (k : ℕ)
    (hk : k ≤ 1021) (hak : |a.toRat| ≤ 2 ^ k) (hbk : |b.toRat| ≤ 2 ^ k) :
    (Double.add a b).isFinite := by
  rw [add_eq_round a b ha hb]
  by_cases h0 : a.sunits + b.sunits = 0
  · rw [if_pos h0]; exact Double.zero_isFinite _
  · rw [if_neg h0]
    apply round_finite _ _ _ scale_pos (k + 1) (by omega)
    have h1 : a.units ≤ 2 ^ k * scale :=
      Double.units_le_of_abs_le a (2 ^ k) (by rw [Nat.cast_pow, Nat.cast_ofNat]; exact hak)
    have h2 : b.units ≤ 2 ^ k * scale :=
      Double.units_le_of_abs_le b (2 ^ k) (by rw [Nat.cast_pow, Nat.cast_ofNat]; exact hbk)
    have h3 : (a.sunits + b.sunits).natAbs ≤ a.sunits.natAbs + b.sunits.natAbs :=
      Int.natAbs_add_le _ _
    rw [Double.sunits_natAbs, Double.sunits_natAbs] at h3
    rw [pow_succ]
    generalize 2 ^ k = P at h1 h2 ⊢
    have e : P * 2 * scale = P * scale + P * scale := by ring
    omega

/-- The seconds part `(double)tv_sec` for a 64-bit `tv_sec`: finite, a nearest
value to `tv_sec`, an integer, and of magnitude at most `2^63`. -/
theorem sec_part (s : ℤ) (hs : |s| ≤ 9223372036854775808) :
    (Double.ofInt s).isFinite ∧ Near (s : ℚ) (Double.ofInt s) ∧
    (∃ k : ℤ, (Double.ofInt s).toRat = k) ∧ |(Double.ofInt s).toRat| ≤ 2 ^ 63 := by
  have hfin := ofInt_finite s 63 (by norm_num) (by norm_num; exact hs)
  have near := ofInt_near s hfin
  obtain ⟨h1, h2⟩ := abs_le.1 hs
  have h1Q : ((-9223372036854775808 : ℤ) : ℚ) ≤ (s : ℚ) := by exact_mod_cast h1
  have h2Q : (s : ℚ) ≤ ((9223372036854775808 : ℤ) : ℚ) := by exact_mod_cast h2
  push_cast at h1Q h2Q
  refine ⟨hfin, near, Double.ofInt_toRat_int s hfin, abs_le.2 ⟨?_, ?_⟩⟩
  · have := near.cand_le (-1) (1074 + 63) (by norm_num) (by
      rw [cand_int]; norm_num; linarith)
    rw [cand_int] at this
    norm_num at this ⊢
    linarith
  · have := near.le_cand 1 (1074 + 63) (by norm_num) (by
      rw [cand_int]; norm_num; linarith)
    rw [cand_int] at this
    norm_num at this ⊢
    linarith

/-- From `2^53` upwards every datum is an even integer. -/
theorem Double.big_even (x : Double) (h : 9007199254740992 ≤ x.toRat) :
    ∃ k : ℤ, x.toRat = 2 * k := by
  have hs := scale_posQ
  have hu0 : (0 : ℚ) ≤ (x.units : ℚ) / (scale : ℚ) :=
    div_nonneg (Nat.cast_nonneg _) (Nat.cast_nonneg _)
  rw [toRat_eq] at h ⊢
  unfold sgn at h ⊢
  cases hsg : x.sign
  · rw [hsg] at h
    simp only [Bool.false_eq_true, if_false, one_mul] at h ⊢
    rw [le_div_iff₀ hs] at h
    have hN : 9007199254740992 * scale ≤ x.units := by exact_mod_cast h
    obtain ⟨M, t, hM, hu⟩ := units_form x
    rw [hu] at hN
    have ht : 1075 ≤ t := by
      by_contra hc
      have hmono : ∀ j k : ℕ, j ≤ k → 2 ^ j ≤ 2 ^ k := fun j k hjk =>
        Nat.pow_le_pow_right (by norm_num) hjk
      have h1 : 2 ^ t ≤ scale := hmono t 1074 (by omega)
      have h2 : M * 2 ^ t ≤ M * scale := Nat.mul_le_mul_left _ h1
      have h3 : M * scale < 9007199254740992 * scale := Nat.mul_lt_mul_of_pos_right hM scale_pos
      omega
    refine ⟨((M * 2 ^ (t - 1075) : ℕ) : ℤ), ?_⟩
    have e : 2 ^ t = 2 ^ (t - 1075) * 2 * scale := by
      unfold scale
      have : t = (t - 1075) + 1 + 1074 := by omega
      conv_lhs => rw [this, pow_add, pow_succ]
    rw [hu, e]
    push_cast
    field_simp
    ring
  · rw [hsg] at h
    simp only [if_true, neg_mul, one_mul] at h
    linarith

/-- Adding a fraction in `[0, 1)` to a datum in `[2^53, 2^63]` leaves it unchanged. -/
theorem Double.add_big (a b : Double) (ha : a.isFinite) (hb : b.isFinite)
    (h53 : 9007199254740992 ≤ a.toRat) (h63 : a.toRat ≤ 2 ^ 63)
    (hb0 : 0 ≤ b.toRat) (hb1 : b.toRat < 1) :
    (Double.add a b).isFinite ∧ (Double.add a b).toRat = a.toRat := by
  have hfin := Double.add_finite a b ha hb 63 (by norm_num)
    (by rw [abs_of_nonneg (by linarith)]; exact h63)
    (by rw [abs_of_nonneg hb0]; norm_num; linarith)
  have near := add_near a b ha hb hfin
  have hd := near.double a
  rw [show a.toRat + b.toRat - a.toRat = b.toRat by ring, abs_of_nonneg hb0] at hd
  obtain ⟨hd1, hd2⟩ := abs_le.1 hd
  obtain ⟨k, hk⟩ := Double.big_even (Double.add a b) (by linarith)
  obtain ⟨j, hj⟩ := Double.big_even a h53
  refine ⟨hfin, ?_⟩
  rw [hk, hj] at hd1 hd2
  rw [hk, hj]
  have h1 : ((2 * j : ℤ) : ℚ) ≤ ((2 * k : ℤ) : ℚ) := by push_cast; linarith
  have h2 : ((2 * k : ℤ) : ℚ) < ((2 * j + 2 : ℤ) : ℚ) := by push_cast; linarith
  have h1' : 2 * j ≤ 2 * k := by exact_mod_cast h1
  have h2' : 2 * k < 2 * j + 2 := by exact_mod_cast h2
  have : k = j := by omega
  rw [this]


/-- The timestamp of a reading with `0 ≤ tv_sec < 2^33` and `0 ≤ tv_usec < 10^6`:
finite, in `[tv_sec, tv_sec + 1)`, within `2^-21 + 2^-54` of the exact value. -/
theorem timestamp_small (s u : ℤ) (hs0 : 0 ≤ s) (hs1 : s < 8589934592)
    (hu0 : 0 ≤ u) (hu1 : u < 1000000) :
    (Double.add (Double.ofInt s) (Double.div (Double.ofInt u) (Double.ofInt 1000000))).isFinite ∧
    (s : ℚ) ≤
      (Double.add (Double.ofInt s) (Double.div (Double.ofInt u) (Double.ofInt 1000000))).toRat ∧
    (Double.add (Double.ofInt s) (Double.div (Double.ofInt u) (Double.ofInt 1000000))).toRat <
      s + 1 ∧
    |(Double.add (Double.ofInt s) (Double.div (Double.ofInt u) (Double.ofInt 1000000))).toRat -
      (s + u / 1000000)| ≤ 1 / 2 ^ 21 + 1 / 2 ^ 54 := by
  obtain ⟨hSfin, hS⟩ := Double.ofInt_exact s (abs_le.2 ⟨by omega, by omega⟩)
  obtain ⟨hFfin, _, hFerr, hF0, hF1⟩ := usec_part u hu0 hu1
  have hsQ0 : (0 : ℚ) ≤ s := by exact_mod_cast hs0
  have hsQ1 : (s : ℚ) ≤ 8589934591 := by
    have : s ≤ 8589934591 := by omega
    exact_mod_cast this
  have huQ1 : (u : ℚ) ≤ 999999 := by
    have : u ≤ 999999 := by omega
    exact_mod_cast this
  have hq1 : (u : ℚ) / 1000000 ≤ 999999 / 1000000 :=
    div_le_div_of_nonneg_right huQ1 (by norm_num)
  generalize Double.div (Double.ofInt u) (Double.ofInt 1000000) = F at *
  have hfin := Double.add_finite (Double.ofInt s) F hSfin hFfin 33 (by norm_num)
    (by rw [hS, abs_of_nonneg hsQ0]; norm_num; linarith)
    (by rw [abs_of_nonneg hF0]; norm_num; linarith)
  have near := add_near (Double.ofInt s) F hSfin hFfin hfin
  rw [hS] at near
  have hq0 : (0 : ℚ) ≤ s + F.toRat := by linarith
  have herr := near.error 1054 (by
    rw [mul_div_assoc, pow_div_scale 1054 20 rfl, abs_of_nonneg hq0]
    norm_num
    linarith)
  rw [pow_div_scale 1054 20 rfl] at herr
  obtain ⟨e1, e2⟩ := abs_le.1 herr
  obtain ⟨f1, f2⟩ := abs_le.1 hFerr
  have hlow := near.cand_le s (1074 + 0) (abs_le.2 ⟨by omega, by omega⟩) (by
    rw [cand_int]; norm_num; exact hF0)
  rw [cand_int] at hlow
  norm_num at hlow e1 e2 f1 f2 hq1
  refine ⟨hfin, hlow, ?_, abs_le.2 ⟨?_, ?_⟩⟩
  · linarith
  · norm_num; linarith
  · norm_num; linarith

/-- Claim C6, as amended. For every reading with `0 ≤ tv_sec < 2^33` and
`0 ≤ tv_usec < 10^6` the timestamp is finite, lies in `[tv_sec, tv_sec + 1)` so
that its integral part is `tv_sec`, its fractional part is within
`2^-21 + 2^-54` of `tv_usec / 10^6` (a bound below half a microsecond; the two
are not equal in general), and two distinct such readings give distinct
timestamps. -/
theorem caml_gettimeofday_parts (r r' g g' : timeval)
    (hs : 0 ≤ r.tv_sec ∧ r.tv_sec < 8589934592) (hu : 0 ≤ r.tv_usec ∧ r.tv_usec < 1000000)
    (hs' : 0 ≤ r'.tv_sec ∧ r'.tv_sec < 8589934592)
    (hu' : 0 ≤ r'.tv_usec ∧ r'.tv_usec < 1000000) :
    ∃ t : Double, caml_gettimeofday (ClockOutcome.ok r) g = caml_copy_double t ∧ t.isFinite ∧
      (r.tv_sec : ℚ) ≤ t.toRat ∧ t.toRat < r.tv_sec + 1 ∧ ⌊t.toRat⌋ = r.tv_sec ∧
      |(t.toRat - r.tv_sec) - r.tv_usec / 1000000| ≤ 1 / 2 ^ 21 + 1 / 2 ^ 54 ∧
      (1 : ℚ) / 2 ^ 21 + 1 / 2 ^ 54 < 1 / 2000000 ∧
      (r ≠ r' →
        caml_gettimeofday (ClockOutcome.ok r) g ≠ caml_gettimeofday (ClockOutcome.ok r') g') := by
  obtain ⟨hfin, hlo, hhi, herr⟩ := timestamp_small r.tv_sec r.tv_usec hs.1 hs.2 hu.1 hu.2
  obtain ⟨_, _, _, herr'⟩ := timestamp_small r'.tv_sec r'.tv_usec hs'.1 hs'.2 hu'.1 hu'.2
  refine ⟨_, rfl, hfin, hlo, hhi, Int.floor_eq_iff.2 ⟨hlo, hhi⟩, ?_, by norm_num, ?_⟩
  · rw [sub_sub]
    exact herr
  · intro hne heq
    apply hne
    have ht : Double.add (Double.ofInt r.tv_sec)
          (Double.div (Double.ofInt r.tv_usec) (Double.ofInt 1000000)) =
        Double.add (Double.ofInt r'.tv_sec)
          (Double.div (Double.ofInt r'.tv_usec) (Double.ofInt 1000000)) :=
      value.boxed_double.inj heq
    rw [ht] at herr
    obtain ⟨a1, a2⟩ := abs_le.1 herr
    obtain ⟨b1, b2⟩ := abs_le.1 herr'
    norm_num at a1 a2 b1 b2
    have c1 : ((r.tv_sec * 1000000 + r.tv_usec : ℤ) : ℚ) <
        ((r'.tv_sec * 1000000 + r'.tv_usec + 1 : ℤ) : ℚ) := by push_cast; linarith
    have c2 : ((r'.tv_sec * 1000000 + r'.tv_usec : ℤ) : ℚ) <
        ((r.tv_sec * 1000000 + r.tv_usec + 1 : ℤ) : ℚ) := by push_cast; linarith
    have d1 : r.tv_sec * 1000000 + r.tv_usec < r'.tv_sec * 1000000 + r'.tv_usec + 1 := by
      exact_mod_cast c1
    have d2 : r'.tv_sec * 1000000 + r'.tv_usec < r.tv_sec * 1000000 + r.tv_usec + 1 := by
      exact_mod_cast c2
    have e1 : r.tv_sec = r'.tv_sec := by omega
    have e2 : r.tv_usec = r'.tv_usec := by omega
    cases r
    cases r'
    simp only at e1 e2
    rw [e1, e2]


/-- Claim C5, as amended. For two readings with `0 ≤ tv_usec < 10^6`, the first not
later than the second in lexicographic order, and seconds between `-2^53` and the
largest 64-bit `time_t`, both timestamps are finite and the first is at most the
second. -/
theorem caml_gettimeofday_monotone (r1 r2 g1 g2 : timeval)
    (hs1 : -9007199254740992 ≤ r1.tv_sec) (hs2 : r2.tv_sec < 9223372036854775808)
    (hu1 : 0 ≤ r1.tv_usec ∧ r1.tv_usec < 1000000)
    (hu2 : 0 ≤ r2.tv_usec ∧ r2.tv_usec < 1000000)
    (hle : r1.tv_sec < r2.tv_sec ∨ (r1.tv_sec = r2.tv_sec ∧ r1.tv_usec ≤ r2.tv_usec)) :
    ∃ t1 t2 : Double, caml_gettimeofday (ClockOutcome.ok r1) g1 = caml_copy_double t1 ∧
      caml_gettimeofday (ClockOutcome.ok r2) g2 = caml_copy_double t2 ∧
      t1.isFinite ∧ t2.isFinite ∧ t1.toRat ≤ t2.toRat := by
  refine ⟨_, _, rfl, rfl, ?_⟩
  obtain ⟨s1, u1⟩ := r1
  obtain ⟨s2, u2⟩ := r2
  simp only at hs1 hs2 hu1 hu2 hle ⊢
  have hb1 : |s1| ≤ 9223372036854775808 := abs_le.2 ⟨by omega, by omega⟩
  have hb2 : |s2| ≤ 9223372036854775808 := abs_le.2 ⟨by omega, by omega⟩
  obtain ⟨S1fin, nearS1, ⟨k1, hk1⟩, habs1⟩ := sec_part s1 hb1
  obtain ⟨S2fin, nearS2, ⟨k2, hk2⟩, habs2⟩ := sec_part s2 hb2
  obtain ⟨F1fin, _, F1err, F10, F11⟩ := usec_part u1 hu1.1 hu1.2
  obtain ⟨F2fin, _, F2err, F20, F21⟩ := usec_part u2 hu2.1 hu2.2
  have T1fin := Double.add_finite _ _ S1fin F1fin 63 (by norm_num) habs1
    (by rw [abs_of_nonneg F10]; norm_num; linarith)
  have T2fin := Double.add_finite _ _ S2fin F2fin 63 (by norm_num) habs2
    (by rw [abs_of_nonneg F20]; norm_num; linarith)
  have nearT1 := add_near _ _ S1fin F1fin T1fin
  have nearT2 := add_near _ _ S2fin F2fin T2fin
  refine ⟨T1fin, T2fin, ?_⟩
  show (Double.add (Double.ofInt s1)
      (Double.div (Double.ofInt u1) (Double.ofInt 1000000))).toRat ≤
    (Double.add (Double.ofInt s2) (Double.div (Double.ofInt u2) (Double.ofInt 1000000))).toRat
  rcases hle with hlt | ⟨heq, hule⟩
  · -- strictly earlier second
    have hltQ : (s1 : ℚ) < (s2 : ℚ) := by exact_mod_cast hlt
    have hS := nearS1.mono nearS2 hltQ
    rw [hk1, hk2] at hS
    have hkk : k1 ≤ k2 := by exact_mod_cast hS
    rcases lt_or_eq_of_le hkk with hk | hk
    · have : ((k1 + 1 : ℤ) : ℚ) ≤ (k2 : ℚ) := by exact_mod_cast hk
      push_cast at this
      exact nearT1.mono nearT2 (by rw [hk1, hk2]; linarith)
    · -- both seconds convert to the same value, which is then at least `2^53`
      have hX : (9007199254740992 : ℚ) ≤ (Double.ofInt s2).toRat := by
        by_cases h53 : s2 ≤ 9007199254740992
        · exfalso
          obtain ⟨_, e1⟩ := Double.ofInt_exact s1 (abs_le.2 ⟨by omega, by omega⟩)
          obtain ⟨_, e2⟩ := Double.ofInt_exact s2 (abs_le.2 ⟨by omega, by omega⟩)
          rw [e1] at hk1
          rw [e2] at hk2
          have a1 : s1 = k1 := by exact_mod_cast hk1
          have a2 : s2 = k2 := by exact_mod_cast hk2
          omega
        · have hc := nearS2.cand_le 9007199254740992 (1074 + 0) (by norm_num) (by
            rw [cand_int]
            have : (9007199254740992 : ℤ) ≤ s2 := by omega
            have hq : ((9007199254740992 : ℤ) : ℚ) ≤ (s2 : ℚ) := by exact_mod_cast this
            norm_num at hq ⊢
            exact hq)
          rw [cand_int] at hc
          norm_num at hc
          exact hc
      have hSS : (Double.ofInt s1).toRat = (Double.ofInt s2).toRat := by
        rw [hk1, hk2, hk]
      have h63 : (Double.ofInt s2).toRat ≤ 2 ^ 63 := (abs_le.1 habs2).2
      obtain ⟨_, b1⟩ := Double.add_big _ _ S1fin F1fin (by rw [hSS]; exact hX)
        (by rw [hSS]; exact h63) F10 F11
      obtain ⟨_, b2⟩ := Double.add_big _ _ S2fin F2fin hX h63 F20 F21
      rw [b1, b2, hSS]
  · -- same second
    subst heq
    rcases lt_or_eq_of_le hule with hu | hu
    · have hQ : ((u1 + 1 : ℤ) : ℚ) ≤ (u2 : ℚ) := by exact_mod_cast hu
      push_cast at hQ
      obtain ⟨a1, a2⟩ := abs_le.1 F1err
      obtain ⟨b1, b2⟩ := abs_le.1 F2err
      norm_num at a1 a2 b1 b2
      apply nearT1.mono nearT2
      have : (u1 : ℚ) / 1000000 + 1 / 1000000 ≤ (u2 : ℚ) / 1000000 := by
        rw [← add_div]
        exact div_le_div_of_nonneg_right hQ (by norm_num)
      norm_num at this
      linarith
    · subst hu
      exact le_refl _


/-- The value of a datum that is a whole number of ones. -/
theorem Double.toRat_of_units (x : Double) (c : ℕ) (h : x.units = c * 2 ^ 1074) :
    x.toRat = sgn x.sign * c := by
  rw [toRat_eq, h, nat_pow_div_scale c 1074 0 rfl]
  norm_num

set_option maxRecDepth 100000 in
set_option exponentiation.threshold 5000 in
/-- Claim C5, counterexample. With a 64-bit `tv_sec` far before the epoch the order
is reversed: the reading `(-2^53 - 1, 999999)` precedes `(-2^53, 0)`, yet its
timestamp is `-9007199254740991`, above the timestamp `-9007199254740992` of the
later one. -/
theorem caml_gettimeofday_monotone_counterexample :
    caml_gettimeofday (ClockOutcome.ok ⟨-9007199254740993, 999999⟩) ⟨0, 0⟩ =
      caml_copy_double ⟨true, 1075, 4503599627370495⟩ ∧
    caml_gettimeofday (ClockOutcome.ok ⟨-9007199254740992, 0⟩) ⟨0, 0⟩ =
      caml_copy_double ⟨true, 1076, 0⟩ ∧
    (⟨true, 1075, 4503599627370495⟩ : Double).toRat = -9007199254740991 ∧
    (⟨true, 1076, 0⟩ : Double).toRat = -9007199254740992 ∧
    ¬ ((⟨true, 1075, 4503599627370495⟩ : Double).toRat ≤ (⟨true, 1076, 0⟩ : Double).toRat) := by
  have h1 : (⟨true, 1075, 4503599627370495⟩ : Double).toRat = -9007199254740991 := by
    rw [Double.toRat_of_units _ 9007199254740991 (by decide)]
    unfold sgn
    norm_num
  have h2 : (⟨true, 1076, 0⟩ : Double).toRat = -9007199254740992 := by
    rw [Double.toRat_of_units _ 9007199254740992 (by decide)]
    unfold sgn
    norm_num
  refine ⟨by decide, by decide, h1, h2, ?_⟩
  rw [h1, h2]
  norm_num

set_option maxRecDepth 100000 in
set_option exponentiation.threshold 5000 in
/-- Witness of the amended C5 at the readings `(1700000000, 999999)` and
`(1700000001, 0)`. -/
theorem caml_gettimeofday_monotone_witness :
    ∃ t1 t2 : Double,
      caml_gettimeofday (ClockOutcome.ok ⟨1700000000, 999999⟩) ⟨0, 0⟩ = caml_copy_double t1 ∧
      caml_gettimeofday (ClockOutcome.ok ⟨1700000001, 0⟩) ⟨0, 0⟩ = caml_copy_double t2 ∧
      t1.isFinite ∧ t2.isFinite ∧ t1.toRat ≤ t2.toRat :=
  caml_gettimeofday_monotone ⟨1700000000, 999999⟩ ⟨1700000001, 0⟩ ⟨0, 0⟩ ⟨0, 0⟩
    (by decide) (by decide) (by decide) (by decide) (by decide)

set_option maxRecDepth 100000 in
set_option exponentiation.threshold 5000 in
/-- Claim C6, counterexample. At the reading `(1, 1)` the timestamp is
`1 + 4503599627 / 2^52`, whose fractional part is not `1 / 10^6`.  At
`tv_sec = 2^34`, `tv_usec = 999999` the timestamp is exactly `tv_sec + 1`: its
integral part is not `tv_sec`, its fractional part is `0`, it is outside
`[tv_sec, tv_sec + 1)`, and it is also the timestamp of the different reading
`(2^34 + 1, 0)`. -/
theorem caml_gettimeofday_parts_counterexample :
    caml_gettimeofday (ClockOutcome.ok ⟨1, 1⟩) ⟨0, 0⟩ =
      caml_copy_double ⟨false, 1023, 4503599627⟩ ∧
    (⟨false, 1023, 4503599627⟩ : Double).toRat - 1 = 4503599627 / 2 ^ 52 ∧
    (4503599627 : ℚ) / 2 ^ 52 ≠ 1 / 1000000 ∧
    caml_gettimeofday (ClockOutcome.ok ⟨17179869184, 999999⟩) ⟨0, 0⟩ =
      caml_copy_double ⟨false, 1057, 262144⟩ ∧
    (⟨false, 1057, 262144⟩ : Double).toRat = 17179869185 ∧
    caml_gettimeofday (ClockOutcome.ok ⟨17179869185, 0⟩) ⟨0, 0⟩ =
      caml_copy_double ⟨false, 1057, 262144⟩ := by
  refine ⟨by decide, ?_, by norm_num, by decide, ?_, by decide⟩
  · rw [toRat_eq,
      show (⟨false, 1023, 4503599627⟩ : Double).units = 4503604130970123 * 2 ^ 1022
        from by decide,
      nat_pow_div_scale _ 1022 52 rfl]
    unfold sgn
    norm_num
  · rw [Double.toRat_of_units _ 17179869185 (by decide)]
    unfold sgn
    norm_num

set_option maxRecDepth 100000 in
set_option exponentiation.threshold 5000 in
/-- Witness of the amended C6 at the readings `(1700000000, 123456)` and
`(1700000000, 123457)`. -/
theorem caml_gettimeofday_parts_witness :
    ∃ t : Double,
      caml_gettimeofday (ClockOutcome.ok ⟨1700000000, 123456⟩) ⟨0, 0⟩ = caml_copy_double t ∧
      t.isFinite ∧ ((1700000000 : ℤ) : ℚ) ≤ t.toRat ∧ t.toRat < ((1700000000 : ℤ) : ℚ) + 1 ∧
      ⌊t.toRat⌋ = 1700000000 ∧
      |(t.toRat - ((1700000000 : ℤ) : ℚ)) - ((123456 : ℤ) : ℚ) / 1000000| ≤
        1 / 2 ^ 21 + 1 / 2 ^ 54 ∧
      (1 : ℚ) / 2 ^ 21 + 1 / 2 ^ 54 < 1 / 2000000 ∧
      ((⟨1700000000, 123456⟩ : timeval) ≠ ⟨1700000000, 123457⟩ →
        caml_gettimeofday (ClockOutcome.ok ⟨1700000000, 123456⟩) ⟨0, 0⟩ ≠
          caml_gettimeofday (ClockOutcome.ok ⟨1700000000, 123457⟩) ⟨0, 0⟩) :=
  caml_gettimeofday_parts ⟨1700000000, 123456⟩ ⟨1700000000, 123457⟩ ⟨0, 0⟩ ⟨0, 0⟩
    (by decide) (by decide) (by decide) (by decide)

/-- Claim C4, as amended. For every duration `d ≥ 0` whose microsecond product is
finite and at most `INT_MAX`, `caml_sleep` requests `u` microseconds with
`u / 10^6 ≥ d - 0.01`; and whenever two clock readings with `0 ≤ tv_sec < 2^33`
are at least `u` microseconds apart, their timestamps differ by at least
`d - 0.01` seconds. -/
theorem caml_sleep_lower_bound (pf : Platform) (d : Double) (log : List Nat)
    (r1 r2 g1 g2 : timeval)
    (h0 : 0 ≤ d.toRat)
    (hfin : (Double.mul (Double.ofInt 1000000) d).isFinite)
    (hhi : (Double.mul (Double.ofInt 1000000) d).toRat ≤ 2147483647)
    (hs1 : 0 ≤ r1.tv_sec ∧ r1.tv_sec < 8589934592)
    (hu1 : 0 ≤ r1.tv_usec ∧ r1.tv_usec < 1000000)
    (hs2 : 0 ≤ r2.tv_sec ∧ r2.tv_sec < 8589934592)
    (hu2 : 0 ≤ r2.tv_usec ∧ r2.tv_usec < 1000000) :
    ∃ (u : ℕ) (t1 t2 : Double),
      caml_sleep pf (caml_copy_double d) log = some (Val_unit, log ++ [u]) ∧
      d.toRat - 1 / 100 ≤ (u : ℚ) / 1000000 ∧
      caml_gettimeofday (ClockOutcome.ok r1) g1 = caml_copy_double t1 ∧
      caml_gettimeofday (ClockOutcome.ok r2) g2 = caml_copy_double t2 ∧
      ((u : ℤ) ≤ (r2.tv_sec * 1000000 + r2.tv_usec) - (r1.tv_sec * 1000000 + r1.tv_usec) →
        d.toRat - 1 / 100 ≤ t2.toRat - t1.toRat) := by
  obtain ⟨u, hsleep, hlo, _⟩ := caml_sleep_at_least pf d log h0 hfin hhi
  obtain ⟨_, _, _, e1⟩ := timestamp_small r1.tv_sec r1.tv_usec hs1.1 hs1.2 hu1.1 hu1.2
  obtain ⟨_, _, _, e2⟩ := timestamp_small r2.tv_sec r2.tv_usec hs2.1 hs2.2 hu2.1 hu2.2
  have hlo' : d.toRat - 2 / 1000000 < (u : ℚ) / 1000000 := by
    rw [lt_div_iff₀ (by norm_num)]
    linarith
  refine ⟨u, _, _, hsleep, by linarith, rfl, rfl, ?_⟩
  intro hgap
  have hgapQ : ((u : ℤ) : ℚ) ≤
      (((r2.tv_sec * 1000000 + r2.tv_usec) - (r1.tv_sec * 1000000 + r1.tv_usec) : ℤ) : ℚ) := by
    exact_mod_cast hgap
  push_cast at hgapQ
  obtain ⟨a1, a2⟩ := abs_le.1 e1
  obtain ⟨b1, b2⟩ := abs_le.1 e2
  show d.toRat - 1 / 100 ≤
    (Double.add (Double.ofInt r2.tv_sec)
      (Double.div (Double.ofInt r2.tv_usec) (Double.ofInt 1000000))).toRat -
    (Double.add (Double.ofInt r1.tv_sec)
      (Double.div (Double.ofInt r1.tv_usec) (Double.ofInt 1000000))).toRat
  have hx : (u : ℚ) / 1000000 ≤
      ((r2.tv_sec : ℚ) + r2.tv_usec / 1000000) - ((r1.tv_sec : ℚ) + r1.tv_usec / 1000000) := by
    rw [div_le_iff₀ (by norm_num)]
    linarith
  norm_num at a1 a2 b1 b2
  linarith

set_option maxRecDepth 100000 in
set_option exponentiation.threshold 5000 in
/-- The product `1000000 * 0.5` is `500000.0`. -/
theorem micros_half :
    Double.mul (Double.ofInt 1000000) ⟨false, 1022, 0⟩ = ⟨false, 1041, 4086334964629504⟩ := by
  decide

set_option maxRecDepth 100000 in
set_option exponentiation.threshold 5000 in
/-- Witness of the amended C4 at `d = 0.5` on x86-64, with readings half a second
apart: the request is `500000` microseconds and the timestamps differ by at
least `0.45`. -/
theorem caml_sleep_lower_bound_witness :
    (∃ (u : ℕ) (t1 t2 : Double),
      caml_sleep Platform.x86_64 (caml_copy_double ⟨false, 1022, 0⟩) [] =
        some (Val_unit, [] ++ [u]) ∧
      (⟨false, 1022, 0⟩ : Double).toRat - 1 / 100 ≤ (u : ℚ) / 1000000 ∧
      caml_gettimeofday (ClockOutcome.ok ⟨1700000000, 0⟩) ⟨0, 0⟩ = caml_copy_double t1 ∧
      caml_gettimeofday (ClockOutcome.ok ⟨1700000000, 500000⟩) ⟨0, 0⟩ = caml_copy_double t2 ∧
      ((u : ℤ) ≤ ((1700000000 : ℤ) * 1000000 + 500000) - ((1700000000 : ℤ) * 1000000 + 0) →
        (⟨false, 1022, 0⟩ : Double).toRat - 1 / 100 ≤ t2.toRat - t1.toRat)) ∧
    caml_sleep Platform.x86_64 (caml_copy_double ⟨false, 1022, 0⟩) [] =
      some (Val_unit, [500000]) ∧
    (⟨false, 1022, 0⟩ : Double).toRat = 1 / 2 :=
  ⟨caml_sleep_lower_bound Platform.x86_64 ⟨false, 1022, 0⟩ [] ⟨1700000000, 0⟩
      ⟨1700000000, 500000⟩ ⟨0, 0⟩ ⟨0, 0⟩
      (Double.le_toRat_of_sunits _ 0 (by decide))
      (by rw [micros_half]; decide)
      (by rw [micros_half]
          exact_mod_cast Double.toRat_le_of_sunits _ 2147483647 (by decide))
      (by decide) (by decide) (by decide) (by decide),
    by rw [caml_sleep_eq, micros_half]; decide,
    by
      rw [toRat_eq, show (⟨false, 1022, 0⟩ : Double).units = 1 * 2 ^ 1073 from by decide,
        nat_pow_div_scale 1 1073 1 rfl]
      unfold sgn
      norm_num⟩

/-! ## What the two stubs return (C1, C8) -/

/-- Claim C1. When the clock query succeeds with the reading `now`, the result is
the boxed `double` computed as `(double)tv_sec + (double)tv_usec / 1000000.`; it
depends on the reading only, not on what the uninitialised buffer held.  For a
64-bit `tv_sec` and `0 ≤ tv_usec < 10^6` every step is finite and correctly
rounded: the seconds are a nearest `double` to `tv_sec`, the quotient a nearest
`double` to `tv_usec / 10^6`, and the sum a nearest `double` to the exact sum of
those two. -/
theorem caml_gettimeofday_reading (now uninit : timeval) :
    caml_gettimeofday (ClockOutcome.ok now) uninit =
      caml_copy_double (Double.add (Double.ofInt now.tv_sec)
        (Double.div (Double.ofInt now.tv_usec) (Double.ofInt 1000000))) ∧
    (|now.tv_sec| ≤ 9223372036854775808 → 0 ≤ now.tv_usec → now.tv_usec < 1000000 →
      Near (now.tv_sec : ℚ) (Double.ofInt now.tv_sec) ∧
      Near ((now.tv_usec : ℚ) / 1000000)
        (Double.div (Double.ofInt now.tv_usec) (Double.ofInt 1000000)) ∧
      Near ((Double.ofInt now.tv_sec).toRat +
          (Double.div (Double.ofInt now.tv_usec) (Double.ofInt 1000000)).toRat)
        (Double.add (Double.ofInt now.tv_sec)
          (Double.div (Double.ofInt now.tv_usec) (Double.ofInt 1000000))) ∧
      (Double.add (Double.ofInt now.tv_sec)
        (Double.div (Double.ofInt now.tv_usec) (Double.ofInt 1000000))).isFinite) := by
  refine ⟨rfl, ?_⟩
  intro hs hu0 hu1
  obtain ⟨Sfin, nearS, _, habs⟩ := sec_part now.tv_sec hs
  obtain ⟨Ffin, nearF, _, F0, F1⟩ := usec_part now.tv_usec hu0 hu1
  have Tfin := Double.add_finite _ _ Sfin Ffin 63 (by norm_num) habs
    (by rw [abs_of_nonneg F0]; norm_num; linarith)
  exact ⟨nearS, nearF, add_near _ _ Sfin Ffin Tfin, Tfin⟩

set_option maxRecDepth 100000 in
set_option exponentiation.threshold 5000 in
/-- Witness of C1 at the reading `(1700000000, 123456)`: the range conditions
hold there, and the result is the datum `1700000000.123456`. -/
theorem caml_gettimeofday_reading_witness :
    (Near ((1700000000 : ℤ) : ℚ) (Double.ofInt 1700000000) ∧
      Near (((123456 : ℤ) : ℚ) / 1000000)
        (Double.div (Double.ofInt 123456) (Double.ofInt 1000000)) ∧
      Near ((Double.ofInt 1700000000).toRat +
          (Double.div (Double.ofInt 123456) (Double.ofInt 1000000)).toRat)
        (Double.add (Double.ofInt 1700000000)
          (Double.div (Double.ofInt 123456) (Double.ofInt 1000000))) ∧
      (Double.add (Double.ofInt 1700000000)
        (Double.div (Double.ofInt 123456) (Double.ofInt 1000000))).isFinite) ∧
    caml_gettimeofday (ClockOutcome.ok ⟨1700000000, 123456⟩) ⟨0, 0⟩ =
      caml_copy_double ⟨false, 1053, 2626717173147316⟩ :=
  ⟨(caml_gettimeofday_reading ⟨1700000000, 123456⟩ ⟨0, 0⟩).2 (by decide) (by decide) (by decide),
    by decide⟩

/-- Claim C8. Whatever the float argument (negative, out of range, infinite or
NaN), the platform's out-of-range conversion and the status `usleep` reports,
`caml_sleep` makes one request of fewer than `2^32` microseconds and returns the
unit value: there is no error result, and the value carries no information about
the input. -/
theorem caml_sleep_returns_unit (pf : Platform) (d : Double) (log : List Nat) :
    ∃ u : ℕ, caml_sleep pf (caml_copy_double d) log = some (Val_unit, log ++ [u]) ∧
      u < 4294967296 := by
  refine ⟨((double_to_int pf.cvt_oor (Double.mul (Double.ofInt 1000000) d)) %
    4294967296).toNat, ?_, usleep_lt _⟩
  rw [caml_sleep_eq, usleep_log]

end Stubs
